import Mathlib

/-!
Verification of the JME expression-language runtime shipped in
src/editor/static/js/numbas/numbas-runtime.js.

This file gives a shallow embedding, in Lean, of the parts of the runtime that
the claims under study talk about: the token and syntax-tree data model, the
tokenizer, the scope chain and the evaluator dispatch, the list-indexing
builtin, the pattern-matching and rewriting engine, and the dependency-ordered
variable resolver.  Each definition is translated from the JavaScript source;
line numbers in doc comments refer to numbas-runtime.js.

Modelling conventions, used throughout:

* JavaScript numbers are modelled as exact rationals (plus a complex pair and
  signed infinities, mirroring the runtime representation).  None of the
  properties proved here depend on floating-point rounding.
* JavaScript exceptions are modelled with Except; a recursion that the source
  performs with unbounded loops or unguarded recursion takes a fuel argument,
  and exhausting the fuel is a distinguished error that no real run produces.
* JavaScript in-place mutation is modelled in two ways: the main evaluator is
  given in value-passing style (sufficient for all claims about results), and
  a separate store-based rendition of substitution and evaluation makes object
  identity explicit for the frame-effect claim.
-/

namespace Numbas

/-- A JavaScript number as held in a TNum token (numbas-runtime.js line 1538):
either an ordinary number, a complex pair produced by math.complex, or an
infinity (the constants table maps the names infinity and infty to Infinity).
Ordinary numbers are modelled as exact rationals. -/
inductive JNum where
| real (q : ℚ)
| cpx (re im : ℚ)
| inf (pos : Bool)
deriving DecidableEq, Repr

/-- math.eq (line 7957): numeric equality, unpacking complex pairs. -/
def mathEq : JNum → JNum → Bool
| .cpx ar ai, .cpx br bi => ar == br && ai == bi
| .cpx ar ai, .real b => ar == b && ai == 0
| .cpx _ _, .inf _ => false
| .real a, .cpx br bi => a == br && bi == 0
| .real a, .real b => a == b
| .real _, .inf _ => false
| .inf _, .cpx _ _ => false
| .inf _, .real _ => false
| .inf p, .inf q => p == q

/-- A token (the tagged variants registered in jme.types, lines 1538 to 1868).
Variants that no claim depends on (html, set, vector, matrix, expression) are
omitted; every case of the evaluator switch that is reachable with the
modelled variants is translated.  Field renamings forced by Lean: the fixity
flags of an op token are called post and pre, and the annotation list of a
name or function token is called ann. -/
inductive Tok where
| num (value : JNum)
| str (value : String) (safe : Bool) (latex : Bool)
| bool (value : Bool)
| name (nm : String) (ann : List String) (unboundName : Bool)
| func (nm : String) (ann : List String)
| op (nm : String) (post : Bool) (pre : Bool)
| list (vars : ℕ) (value : Option (List Tok))
| dict (value : Option (List (String × Tok)))
| keypair (key : String)
| range (rstart rend rstep : JNum)
| punc (kind : String)

/-- The type tag of each token, as set on the constructor prototypes.  A
punctuation token uses the punctuation character itself as its type. -/
def Tok.type : Tok → String
| .num _ => "number"
| .str _ _ _ => "string"
| .bool _ => "boolean"
| .name _ _ _ => "name"
| .func _ _ => "function"
| .op _ _ _ => "op"
| .list _ _ => "list"
| .dict _ => "dict"
| .keypair _ => "keypair"
| .range _ _ _ => "range"
| .punc k => k

/-- The name property of a token.  Tokens that have no name property in the
source yield the empty string here (reading the property in JavaScript gives
undefined; the runtime only ever compares it against nonempty names). -/
def Tok.nameStr : Tok → String
| .name n _ _ => n
| .func n _ => n
| .op n _ _ => n
| _ => ""

/-- A syntax tree (typedef Numbas.jme.tree, line 278): a token plus, for
operator and function applications, an ordered argument list.  A leaf mirrors
a node object whose args property is undefined. -/
inductive Tree where
| leaf (tok : Tok)
| node (tok : Tok) (args : List Tree)

/-- The token at the root of a tree. -/
def Tree.tok : Tree → Tok
| .leaf t => t
| .node t _ => t

/-- The argument list of a tree, empty for a leaf. -/
def Tree.argsD : Tree → List Tree
| .leaf _ => []
| .node _ a => a

/-- jme.isOp (line 1107). -/
def isOp (tok : Tok) (opName : String) : Bool :=
  tok.type == "op" && tok.nameStr == opName

/-- jme.isName (line 1117). -/
def isName (tok : Tok) (n : String) : Bool :=
  tok.type == "name" && tok.nameStr == n

/-- The errors raised by the modelled parts of the runtime.  Each constructor
names the Numbas.Error message key it models; jsError stands for a host-level
TypeError raised by reading a property of undefined, and outOfFuel is the
modelling artefact standing for a recursion the source performs unboundedly. -/
inductive Err where
| outOfFuel
| jsError (what : String)
| tokeniseInvalid (expression : String)
| tokeniseKeypairKeyNotAString (tpe : String)
| invalidIndex (index : ℚ) (size : ℕ)
| listvalNotAList
| variableNotDefined (nm : String)
| substituteTreeUndefinedVariable (nm : String)
| circularReference (nm : String) (path : List String)
| emptyDefinition (nm : String)
| errorComputingDependency (nm : String) (inner : Err)
| errorEvaluatingVariable (nm : String) (inner : Err)
| functionNotDefined (opName : String)
| opNotDefined (opName : String)
| functionMaybeImplicitMultiplication (nm first possibleOp : String)
| noRightTypeDefinition (opName : String)
| noRightTypeUnboundName (nm : String)
| groupNameNotAName
| noScopeGiven
deriving DecidableEq, Repr

/-! ## List indexing (claim C9)

The listval builtin for a list and a number (lines 3336 to 3358) together
with util.wrapListIndex (line 10105). -/

/-- util.wrapListIndex (line 10105): wrap a list index so that -1 maps to
size - 1. -/
def wrapListIndex (n : ℚ) (size : ℕ) : ℚ :=
  if n < 0 then n + size else n

/-- Does the JavaScript test (index in array) succeed for a numeric index on
an array of the given length?  It does exactly when the index is an integer
in the half-open range from 0 to the length; the corresponding array offset
is returned. -/
def ratIndex? (q : ℚ) (len : ℕ) : Option ℕ :=
  if q.den = 1 ∧ 0 ≤ q.num ∧ q.num < len then some q.num.toNat else none

/-- The listval builtin registered for a list and a number (line 3336): wrap
the index, check that the first argument really is a realized list, and look
the index up, raising the invalid-index error when the lookup fails.  The
evaluate field receives the already-evaluated argument tokens. -/
def listval (args : List Tok) : Except Err Tok :=
  match args with
  | [lst, idx] =>
    match lst, idx with
    | .list vars (some value), .num (.real q) =>
      let w := wrapListIndex q vars
      match value.get? ((ratIndex? w value.length).getD value.length) with
      | some t => .ok t
      | none => .error (.invalidIndex w value.length)
    | .list _ none, _ => .error (.jsError "list value not realized")
    | .list _ _, _ => .error (.invalidIndex 0 0)
    | .name n _ _, _ => .error (.variableNotDefined n)
    | _, _ => .error .listvalNotAList
  | _ => .error (.jsError "listval arity")

/-- C9: evaluating the indexing operation on a realized list of length n with
an integer index i returns the element at position i when 0 <= i < n, returns
the element at position i + n when -n <= i < 0, and raises the invalid-index
error for every other integer i. -/
theorem listval_integer_index_spec (l : List Tok) (i : ℤ) :
    (∀ t : Tok, 0 ≤ i → l.get? i.toNat = some t →
      listval [Tok.list l.length (some l), Tok.num (.real (i : ℚ))] = .ok t) ∧
    (∀ t : Tok, i < 0 → 0 ≤ i + (l.length : ℤ) →
      l.get? (i + (l.length : ℤ)).toNat = some t →
      listval [Tok.list l.length (some l), Tok.num (.real (i : ℚ))] = .ok t) ∧
    (i < -(l.length : ℤ) ∨ (l.length : ℤ) ≤ i →
      listval [Tok.list l.length (some l), Tok.num (.real (i : ℚ))] =
        .error (.invalidIndex (wrapListIndex (i : ℚ) l.length) l.length)) := by
  have hden : ((i : ℚ)).den = 1 := Rat.den_intCast i
  have hnum : ((i : ℚ)).num = i := Rat.num_intCast i
  have hcast : (i : ℚ) + (l.length : ℚ) = ((i + (l.length : ℤ) : ℤ) : ℚ) := by
    push_cast; ring
  refine ⟨?_, ?_, ?_⟩
  · intro t hi hget
    have hlt : i.toNat < l.length := (List.get?_eq_some.mp hget).1
    have hilt : i < (l.length : ℤ) := by omega
    have hnotneg : ¬ ((i : ℚ) < 0) := by
      rw [not_lt]
      exact_mod_cast hi
    simp only [listval, wrapListIndex, if_neg hnotneg, ratIndex?, hden, hnum]
    rw [if_pos ⟨trivial, hi, hilt⟩]
    simp only [Option.getD_some]
    rw [hget]
  · intro t hi hnn hget
    have hlt : (i + (l.length : ℤ)).toNat < l.length := (List.get?_eq_some.mp hget).1
    have hneg : ((i : ℚ) < 0) := by exact_mod_cast hi
    have hilt : i + (l.length : ℤ) < (l.length : ℤ) := by omega
    simp only [listval, wrapListIndex, if_pos hneg, ratIndex?, hcast,
      Rat.den_intCast, Rat.num_intCast]
    rw [if_pos ⟨trivial, hnn, hilt⟩]
    simp only [Option.getD_some]
    rw [hget]
  · intro hout
    have hnone : l.get? l.length = none := List.get?_eq_none.mpr (le_refl l.length)
    rcases hout with hlow | hhigh
    · have hneg : ((i : ℚ) < 0) := by
        have : i < 0 := by omega
        exact_mod_cast this
      have hbad : ¬ (((i : ℚ) + (l.length : ℚ)).den = 1 ∧
          0 ≤ ((i : ℚ) + (l.length : ℚ)).num ∧
          ((i : ℚ) + (l.length : ℚ)).num < (l.length : ℤ)) := by
        rw [hcast, Rat.den_intCast, Rat.num_intCast]
        intro hc
        omega
      simp only [listval, wrapListIndex, if_pos hneg, ratIndex?, if_neg hbad,
        Option.getD_none]
      rw [hnone]
    · have hnotneg : ¬ ((i : ℚ) < 0) := by
        rw [not_lt]
        have : (0 : ℤ) ≤ i := by omega
        exact_mod_cast this
      have hbad : ¬ (((i : ℚ)).den = 1 ∧ 0 ≤ ((i : ℚ)).num ∧
          ((i : ℚ)).num < (l.length : ℤ)) := by
        rw [hden, hnum]
        intro hc
        omega
      simp only [listval, wrapListIndex, if_neg hnotneg, ratIndex?, if_neg hbad,
        Option.getD_none]
      rw [hnone]

/-- Witness for C9: on the concrete list with elements 10 and 20, index 1
gives the element 20, index -2 wraps to the element 10, and index 5 raises
the invalid-index error. -/
theorem listval_integer_index_spec_witness :
    listval [Tok.list 2 (some [Tok.num (.real 10), Tok.num (.real 20)]),
      Tok.num (.real ((1 : ℤ) : ℚ))] = .ok (Tok.num (.real 20)) ∧
    listval [Tok.list 2 (some [Tok.num (.real 10), Tok.num (.real 20)]),
      Tok.num (.real ((-2 : ℤ) : ℚ))] = .ok (Tok.num (.real 10)) ∧
    listval [Tok.list 2 (some [Tok.num (.real 10), Tok.num (.real 20)]),
      Tok.num (.real ((5 : ℤ) : ℚ))] =
      .error (.invalidIndex (wrapListIndex ((5 : ℤ) : ℚ) 2) 2) := by
  refine ⟨?_, ?_, ?_⟩
  · exact (listval_integer_index_spec [Tok.num (.real 10), Tok.num (.real 20)] 1).1
      (Tok.num (.real 20)) (by decide) rfl
  · exact (listval_integer_index_spec [Tok.num (.real 10), Tok.num (.real 20)] (-2)).2.1
      (Tok.num (.real 10)) (by decide) (by decide) rfl
  · exact (listval_integer_index_spec [Tok.num (.real 10), Tok.num (.real 20)] 5).2.2
      (Or.inr (by decide))

/-! ## Tokenizer (claim C3)

jme.tokenise (lines 313 to 459) with the regular expressions of jme.re
(lines 296 to 306) rendered as recognizers over character lists. -/

/-- The apostrophe character, which may trail an identifier. -/
def apos : Char := Char.ofNat 39

/-- Lowercase a string characterwise, modelling the host toLowerCase calls.
Only ascii strings reach these calls in the modelled code paths. -/
def strLower (s : String) : String :=
  (s.data.map Char.toLower).asString

/-- The left brace character. -/
def braceL : Char := Char.ofNat 123

/-- The right brace character. -/
def braceR : Char := Char.ofNat 125

/-- One character of the whitespace class re_whitespace (line 1171). -/
def isWSChar (c : Char) : Bool :=
  c = ' ' || c = '\t' || c = '\n' || c = '\r' || c = Char.ofNat 11 ||
  c = Char.ofNat 12 || c = Char.ofNat 160 || c = Char.ofNat 8232 ||
  c = Char.ofNat 8233

/-- Strip the leading whitespace run, where a whitespace unit is either a
whitespace character or the six-character entity for a nonbreaking space
(re_strip_whitespace, line 1172, leading anchor). -/
def stripWSLeft : List Char → List Char
| [] => []
| c :: cs =>
  if isWSChar c then stripWSLeft cs
  else match c, cs with
    | '&', 'n' :: 'b' :: 's' :: 'p' :: ';' :: rest => stripWSLeft rest
    | _, _ => c :: cs

/-- Strip a trailing whitespace run from a reversed character list. -/
def stripWSRightRev : List Char → List Char
| [] => []
| c :: cs =>
  if isWSChar c then stripWSRightRev cs
  else match c, cs with
    | ';', 'p' :: 's' :: 'b' :: 'n' :: '&' :: rest => stripWSRightRev rest
    | _, _ => c :: cs

/-- Replace leading and trailing whitespace with nothing, as the global
regex re_strip_whitespace does with both anchors. -/
def stripWS (l : List Char) : List Char :=
  (stripWSRightRev (stripWSLeft l).reverse).reverse

/-- Drop the body of a line comment: everything up to and including the next
newline, or the whole rest of the input (re_comment, line 304). -/
def dropComment : List Char → List Char
| [] => []
| '\n' :: r => r
| _ :: r => dropComment r

/-- Fold a digit list into a natural number. -/
def digitsVal (ds : List Char) : ℕ :=
  ds.foldl (fun a c => 10 * a + (c.toNat - 48)) 0

/-- Take the leading digit run. -/
def takeDigits : List Char → (List Char × List Char)
| [] => ([], [])
| c :: cs =>
  if c.isDigit then ((c :: (takeDigits cs).1), (takeDigits cs).2)
  else ([], c :: cs)

/-- The numeric value of an integer part and a fraction part, as an exact
rational.  The host stores the nearest double instead; no claim under test
depends on the rounding. -/
def ratOfParts (intPart fracPart : List Char) : ℚ :=
  (digitsVal intPart : ℚ) + (digitsVal fracPart : ℚ) / ((10 : ℚ) ^ fracPart.length)

/-- Recognize a number literal, re_number (line 299): a digit run optionally
followed by a point and another digit run. -/
def matchNumber (l : List Char) : Option (JNum × List Char) :=
  match takeDigits l with
  | ([], _) => none
  | (ds, rest) =>
    match rest with
    | '.' :: rest2 =>
      match takeDigits rest2 with
      | ([], _) => some (.real (ratOfParts ds []), rest)
      | (ds2, rest3) => some (.real (ratOfParts ds ds2), rest3)
    | _ => some (.real (ratOfParts ds []), rest)

/-- Does this character continue an identifier, the class used by the
negative lookahead of re_bool and the boundary of the keyword alternatives
of re_op? -/
def idContinueChar (c : Char) : Bool :=
  c.isAlphanum || c = '_' || c = apos

/-- If the lowercased input starts with the given word, return the remainder. -/
def lowerPrefixIs (w : List Char) (l : List Char) : Option (List Char) :=
  if (l.take w.length).map Char.toLower = w ∧ w.length ≤ l.length then
    some (l.drop w.length)
  else none

/-- Is the word boundary satisfied: end of input or a character that cannot
continue an identifier? -/
def boundaryOk : List Char → Bool
| [] => true
| c :: _ => !idContinueChar c

/-- Recognize a boolean literal, re_bool (line 298): true or false, case
insensitive, not followed by an identifier character.  util.parseBool
(line 10139) turns the lowercased text into the value. -/
def matchBool (l : List Char) : Option (Bool × List Char) :=
  match lowerPrefixIs "true".data l with
  | some r => if boundaryOk r then some (true, r) else none
  | none =>
    match lowerPrefixIs "false".data l with
    | some r => if boundaryOk r then some (false, r) else none
    | none => none

/-- The single-character operator class of re_op (line 301). -/
def symbolOpChar (c : Char) : Bool :=
  c = '|' || c = '*' || c = '+' || c = '-' || c = '/' || c = '^' ||
  c = '<' || c = '>' || c = '=' || c = '!' || c = '&' || c = ';'

/-- The keyword alternatives of re_op, in the order the alternation lists
them. -/
def opWords : List String :=
  ["not", "and", "or", "xor", "implies", "isa", "except", "in", "divides"]

/-- Try the keyword alternatives of re_op: a case-insensitive keyword match
followed by a word boundary.  The emitted text keeps the case of the input,
as capture group two of the regex does. -/
def matchOpWord (l : List Char) : Option (String × List Char) :=
  opWords.foldl
    (fun acc w =>
      match acc with
      | some r => some r
      | none =>
        match lowerPrefixIs w.data l with
        | some r => if boundaryOk r then some ((l.take w.data.length).asString, r) else none
        | none => none)
    none

/-- Recognize an operator, re_op (line 301): the multicharacter symbols, then
the single-character class, then the keyword alternatives. -/
def matchOp : List Char → Option (String × List Char)
| '.' :: '.' :: r => some ("..", r)
| '#' :: r => some ("#", r)
| '<' :: '=' :: r => some ("<=", r)
| '>' :: '=' :: r => some (">=", r)
| '<' :: '>' :: r => some ("<>", r)
| '&' :: '&' :: r => some ("&&", r)
| '|' :: '|' :: r => some ("||", r)
| c :: r =>
  if symbolOpChar c then some (String.mk [c], r)
  else matchOpWord (c :: r)
| [] => none

/-- Take the leading run of ascii letters. -/
def takeLetters : List Char → (List Char × List Char)
| [] => ([], [])
| c :: cs =>
  if c.isAlpha then ((c :: (takeLetters cs).1), (takeLetters cs).2)
  else ([], c :: cs)

/-- Take the leading run of identifier continuation characters other than
apostrophes. -/
def takeIdChars : List Char → (List Char × List Char)
| [] => ([], [])
| c :: cs =>
  if c.isAlphanum || c = '_' then ((c :: (takeIdChars cs).1), (takeIdChars cs).2)
  else ([], c :: cs)

/-- Take the leading run of apostrophes. -/
def takeApos : List Char → (List Char × List Char)
| [] => ([], [])
| c :: cs =>
  if c = apos then ((c :: (takeApos cs).1), (takeApos cs).2)
  else ([], c :: cs)

theorem takeLetters_rest_length (l : List Char) :
    (takeLetters l).2.length + (takeLetters l).1.length = l.length := by
  induction l with
  | nil => simp [takeLetters]
  | cons c cs ih =>
      simp only [takeLetters]
      split
      · simp only [List.length_cons]
        omega
      · simp

/-- Parse the leading annotation groups of re_name (line 300): a greedy run
of groups, each an ascii-letter word followed by a colon.  The fuel argument
only bounds the number of groups; each group consumes at least two
characters, so the fuel supplied by parseAnnotations never runs out. -/
def parseAnnotationsF : ℕ → List Char → (List (List Char) × List Char)
| 0, l => ([], l)
| fuel + 1, l =>
  if (takeLetters l).1 ≠ [] ∧ (takeLetters l).2.head? = some ':' then
    ((takeLetters l).1 :: (parseAnnotationsF fuel (takeLetters l).2.tail).1,
     (parseAnnotationsF fuel (takeLetters l).2.tail).2)
  else ([], l)

/-- Parse the leading annotation groups, with fuel adequate for any input. -/
def parseAnnotations (l : List Char) : (List (List Char) × List Char) :=
  parseAnnotationsF l.length l

/-- Parse the name alternative of re_name: an optional dollar, a letter or
underscore, identifier characters, trailing apostrophes; or one or two
question marks. -/
def parseNamePart (l : List Char) : Option (List Char × List Char) :=
  match l with
  | '?' :: '?' :: r => some (['?', '?'], r)
  | '?' :: r => some (['?'], r)
  | _ =>
    let p := match l with
      | '$' :: r => (['$'], r)
      | _ => (([] : List Char), l)
    match p.2 with
    | c :: r =>
      if c.isAlpha || c = '_' then
        let q := takeIdChars r
        let q2 := takeApos q.2
        some (p.1 ++ (c :: q.1) ++ q2.1, q2.2)
      else none
    | [] => none

/-- Recognize a name, re_name (line 300): an optional opening brace, greedy
annotation groups, the name body, an optional closing brace.  When the name
body fails to match after at least one annotation group, the regex engine
backtracks one group and that last word becomes the name. -/
def matchName (l : List Char) : Option (String × List String × List Char) :=
  let l1 := match l with
    | c :: r => if c = braceL then r else l
    | _ => l
  let p := parseAnnotations l1
  match parseNamePart p.2 with
  | some (nm, l3) =>
    let l4 := match l3 with
      | c :: r => if c = braceR then r else l3
      | _ => l3
    some (nm.asString, p.1.map List.asString, l4)
  | none =>
    match p.1.getLast? with
    | some lastWord =>
      some (lastWord.asString, (p.1.dropLast).map List.asString, ':' :: p.2)
    | none => none

/-- Recognize a punctuation character, re_punctuation (line 302). -/
def matchPunc : List Char → Option (String × List Char)
| c :: r =>
  if c = '(' || c = ')' || c = ',' || c = '[' || c = ']' then
    some (String.mk [c], r)
  else none
| [] => none

/-- Scan the body of a string literal up to the closing delimiter, keeping
escape pairs intact, as the lazy body of re_string (line 303) does. -/
def scanStr (delim : List Char) : List Char → Option (List Char × List Char)
| [] => none
| c :: cs =>
  if delim.isPrefixOf (c :: cs) then some ([], (c :: cs).drop delim.length)
  else
    if c = '\\' then
      match cs with
      | [] => none
      | c2 :: r => (scanStr delim r).map (fun p => ('\\' :: c2 :: p.1, p.2))
    else (scanStr delim cs).map (fun p => (c :: p.1, p.2))

/-- Recognize a string literal: a triple or single quote delimiter, a lazily
matched body, the same delimiter again. -/
def matchString (l : List Char) : Option (List Char × List Char) :=
  let delims : List (List Char) :=
    [['"', '"', '"'], [apos, apos, apos], ['"'], [apos]]
  delims.foldl
    (fun acc d =>
      match acc with
      | some r => some r
      | none =>
        if d.isPrefixOf l then scanStr d (l.drop d.length)
        else none)
    none

/-- Decode backslash escapes in a string body (tokenise, lines 415 to 435):
a backslash before n becomes a newline, a backslash before a brace is kept
as written, and any other escaped character stands for itself. -/
def decodeString : List Char → List Char
| [] => []
| '\\' :: c :: r =>
  if c = 'n' then '\n' :: decodeString r
  else if c = braceL || c = braceR then '\\' :: c :: decodeString r
  else c :: decodeString r
| '\\' :: [] => []
| c :: r => c :: decodeString r

/-- jme.constants (line 288).  The values of e and pi are the exact rationals
denoted by the doubles Math.E and Math.PI. -/
def constantsTable : List (String × JNum) :=
  [("e", .real (6121026514868073 / 2251799813685248 : ℚ)),
   ("pi", .real (884279719003555 / 281474976710656 : ℚ)),
   ("i", .cpx 0 1),
   ("infinity", .inf true),
   ("infty", .inf true)]

/-- jme.opSynonyms (line 1942). -/
def opSynonyms : List (String × String) :=
  [("&", "and"), ("&&", "and"), ("divides", "|"), ("||", "or")]

/-- The prefixForm table (line 1888). -/
def prefixForm : List (String × String) :=
  [("+", "+u"), ("-", "-u"), ("!", "not")]

/-- The postfixForm table (line 1898). -/
def postfixForm : List (String × String) :=
  [("!", "fact")]

/-- The implicit multiplication token the tokenizer inserts. -/
def starTok : Tok := .op "*" false false

/-- The type of the most recently emitted token, if any. -/
def lastTokType (tokens : List Tok) : Option String :=
  (tokens.getLast?).map Tok.type

/-- Does the most recently emitted token have one of the given types? -/
def prevTypeIn (tokens : List Tok) (tys : List String) : Bool :=
  match lastTokType tokens with
  | some ty => tys.contains ty
  | none => false

/-- Does the previous token mark the start of an operand, so that an
ambiguous operator symbol takes its prefix form (tokenise, line 364)? -/
def prevStartsOperand (tokens : List Tok) : Bool :=
  match tokens.getLast? with
  | none => true
  | some t =>
    t.type == "(" || t.type == "," || t.type == "[" ||
    (t.type == "op" && !(match t with | .op _ post _ => post | _ => false)) ||
    t.type == "keypair"

/-- Does the input start a line comment? -/
def startsComment : List Char → Bool
| '/' :: '/' :: _ => true
| _ => false

/-- The remainder after cutting off a leading line comment. -/
def afterComment : List Char → List Char
| '/' :: '/' :: r => dropComment r
| l => l

/-- Does the input start a key-pair colon (re_keypair, line 305)? -/
def startsKeypair : List Char → Bool
| ':' :: _ => true
| _ => false

/-- The token emitted by the name branch (lines 380 to 397): a name without
annotations whose lowercased text is a reserved constant becomes a number
token; every other name becomes a name token. -/
def nameBranchTok (nm : String) (ann : List String) : Tok :=
  if ann.isEmpty then
    match constantsTable.lookup (strLower nm) with
    | some v => Tok.num v
    | none => Tok.name nm [] false
  else Tok.name nm ann false

/-- The token emitted by the operator branch (lines 352 to 378): translate
synonyms, then retag the operator as its prefix form when the previous token
marks the start of an operand, else as its postfix form when it has one. -/
def opBranchTok (tokens : List Tok) (opText : String) : Tok :=
  if prevStartsOperand tokens then
    match prefixForm.lookup ((opSynonyms.lookup opText).getD opText) with
    | some t2 => Tok.op t2 false true
    | none => Tok.op ((opSynonyms.lookup opText).getD opText) false false
  else
    match postfixForm.lookup ((opSynonyms.lookup opText).getD opText) with
    | some t2 => Tok.op t2 true false
    | none => Tok.op ((opSynonyms.lookup opText).getD opText) false false

/-- One pass of the tokenise loop (lines 327 to 456): strip whitespace, cut
off a leading comment if one is present, and otherwise try the recognizers
in order, applying the implicit-multiplication and prefix/postfix
disambiguation rules, then recurse on the remainder.  The source strips all
leading comments in an inner loop before matching; stripping one comment per
outer pass reaches the same states because the pass begins by stripping
whitespace again.  The fuel bounds the number of passes; every pass consumes
at least one character, so the initial fuel used by tokenise never runs
out. -/
def tokeniseLoop (oexpr : String) : ℕ → List Char → List Tok → Except Err (List Tok)
| 0, _, _ => .error .outOfFuel
| fuel + 1, expr0, tokens =>
  if expr0.isEmpty then .ok tokens
  else
    let expr := stripWS expr0
    if startsComment expr then tokeniseLoop oexpr fuel (afterComment expr) tokens
    else
    match matchNumber expr with
    | some (v, rest) =>
      let tokens2 := if prevTypeIn tokens [")", "name"] then tokens ++ [starTok] else tokens
      tokeniseLoop oexpr fuel rest (tokens2 ++ [Tok.num v])
    | none =>
    match matchBool expr with
    | some (b, rest) => tokeniseLoop oexpr fuel rest (tokens ++ [Tok.bool b])
    | none =>
    match matchOp expr with
    | some (opText, rest) =>
      tokeniseLoop oexpr fuel rest (tokens ++ [opBranchTok tokens opText])
    | none =>
    match matchName expr with
    | some (nm, ann, rest) =>
      let tokens2 :=
        if prevTypeIn tokens ["number", "name", ")"] then tokens ++ [starTok] else tokens
      tokeniseLoop oexpr fuel rest (tokens2 ++ [nameBranchTok nm ann])
    | none =>
    match matchPunc expr with
    | some (k, rest) =>
      let tokens2 :=
        if k == "(" && prevTypeIn tokens ["number", ")"] then tokens ++ [starTok] else tokens
      tokeniseLoop oexpr fuel rest (tokens2 ++ [Tok.punc k])
    | none =>
    match matchString expr with
    | some (raw, rest) =>
      tokeniseLoop oexpr fuel rest (tokens ++ [Tok.str (decodeString raw).asString false false])
    | none =>
    if startsKeypair expr then
      match tokens.getLast? with
      | none => .error (.jsError "keypair with no previous token")
      | some t =>
        match t with
        | .str v _ _ => tokeniseLoop oexpr fuel expr.tail (tokens.dropLast ++ [Tok.keypair v])
        | _ => .error (.tokeniseKeypairKeyNotAString t.type)
    else if expr.isEmpty then .ok tokens
    else .error (.tokeniseInvalid oexpr)

/-- jme.tokenise (line 313): convert an expression string to a token list. -/
def tokenise (s : String) : Except Err (List Tok) :=
  if s.isEmpty then .ok []
  else tokeniseLoop s (s.length + 1) (stripWS s.data) []

/-- The combinations of adjacent token types between which the tokenizer
inserts an implicit multiplication operator: a number after a right bracket
or a name (line 342), a name after a number, a name, or a right bracket
(line 399), and a left parenthesis after a number or a right bracket
(line 405). -/
def requiresStar (u v : Tok) : Bool :=
  (v.type == "number" && (u.type == ")" || u.type == "name")) ||
  (v.type == "name" && (u.type == "number" || u.type == "name" || u.type == ")")) ||
  (v.type == "(" && (u.type == "number" || u.type == ")"))

theorem requiresStar_star_left (v : Tok) : requiresStar starTok v = false := by
  simp [requiresStar, starTok, Tok.type]

theorem requiresStar_star_right (u : Tok) : requiresStar u starTok = false := rfl

theorem chain'_push {P : Tok → Tok → Prop} {tokens : List Tok} {t : Tok}
    (h : List.Chain' P tokens) (hl : ∀ u, tokens.getLast? = some u → P u t) :
    List.Chain' P (tokens ++ [t]) := by
  rw [List.chain'_append]
  refine ⟨h, List.chain'_singleton t, ?_⟩
  intro x hx y hy
  simp only [List.head?_cons, Option.mem_def, Option.some.injEq] at hy
  subst hy
  exact hl x hx

/-- Pushing a token after an inserted star keeps the separation invariant. -/
theorem chain'_push_star {tokens : List Tok} {t : Tok}
    (h : List.Chain' (fun u v => requiresStar u v = false) tokens) :
    List.Chain' (fun u v => requiresStar u v = false) (tokens ++ [starTok] ++ [t]) :=
  chain'_push (chain'_push h (fun u _ => requiresStar_star_right u))
    (by
      intro u hu
      simp only [List.getLast?_append, List.getLast?_singleton] at hu
      cases hu
      exact requiresStar_star_left t)

theorem prevTypeIn_false {tokens : List Tok} {tys : List String} {u : Tok}
    (hne : prevTypeIn tokens tys = false) (hu : tokens.getLast? = some u) :
    ¬ u.type ∈ tys := by
  intro hmem
  have hc : tys.contains u.type = true := List.elem_iff.mpr hmem
  have : prevTypeIn tokens tys = true := by
    simp only [prevTypeIn, lastTokType, hu, Option.map_some']
    exact hc
  rw [this] at hne
  cases hne

/-- The separation property holds for any token whose type is none of the
three trigger types of the second components of requiresStar. -/
theorem requiresStar_false_of_vtype {v : Tok}
    (hv : v.type ≠ "number" ∧ v.type ≠ "name" ∧ v.type ≠ "(") (u : Tok) :
    requiresStar u v = false := by
  simp [requiresStar, hv.1, hv.2.1, hv.2.2]

theorem requiresStar_false_numname {u v : Tok}
    (hv : v.type = "number" ∨ v.type = "name")
    (hu : ¬ u.type ∈ ["number", "name", ")"]) : requiresStar u v = false := by
  simp only [List.mem_cons, List.mem_singleton, not_or] at hu
  cases hv with
  | inl h => simp [requiresStar, h, hu.1, hu.2.1, hu.2.2]
  | inr h => simp [requiresStar, h, hu.1, hu.2.1, hu.2.2]

theorem nameBranchTok_type (nm : String) (ann : List String) :
    (nameBranchTok nm ann).type = "number" ∨ (nameBranchTok nm ann).type = "name" := by
  unfold nameBranchTok
  split
  · split
    · exact Or.inl rfl
    · exact Or.inr rfl
  · exact Or.inr rfl

theorem matchPunc_mem {l : List Char} {k : String} {r : List Char}
    (h : matchPunc l = some (k, r)) : k ∈ ["(", ")", ",", "[", "]"] := by
  cases l with
  | nil => cases h
  | cons c cs =>
      simp only [matchPunc] at h
      split at h
      · cases h
        rename_i hc
        simp only [Bool.or_eq_true, decide_eq_true_eq] at hc
        rcases hc with ((((h1 | h2) | h3) | h4) | h5) <;> subst_vars <;> simp
      · cases h

theorem opBranchTok_type (tokens : List Tok) (opText : String) :
    (opBranchTok tokens opText).type = "op" := by
  unfold opBranchTok
  split
  · split <;> rfl
  · split <;> rfl

theorem tokeniseLoop_separated (oexpr : String) :
    ∀ fuel expr tokens ts,
      List.Chain' (fun u v => requiresStar u v = false) tokens →
      tokeniseLoop oexpr fuel expr tokens = .ok ts →
      List.Chain' (fun u v => requiresStar u v = false) ts := by
  intro fuel
  induction fuel with
  | zero =>
      intro expr tokens ts h hrun
      simp [tokeniseLoop] at hrun
  | succ f ih =>
      intro expr tokens ts h hrun
      simp only [tokeniseLoop] at hrun
      by_cases he : expr.isEmpty
      · rw [if_pos he] at hrun
        cases hrun
        exact h
      rw [if_neg he] at hrun
      by_cases hc : startsComment (stripWS expr)
      · rw [if_pos hc] at hrun
        exact ih _ _ _ h hrun
      rw [if_neg hc] at hrun
      cases hmn : matchNumber (stripWS expr) with
      | some p =>
          obtain ⟨v, rest⟩ := p
          rw [hmn] at hrun
          simp only at hrun
          by_cases hp : prevTypeIn tokens [")", "name"]
          · rw [if_pos hp] at hrun
            exact ih _ _ _ (chain'_push_star h) hrun
          · rw [if_neg (by simpa using hp)] at hrun
            refine ih _ _ _ (chain'_push h ?_) hrun
            intro u hu
            have hu2 := prevTypeIn_false (by simpa using hp) hu
            simp only [List.mem_cons, List.mem_singleton, not_or] at hu2
            have hvty : (Tok.num v).type = "number" := rfl
            simp [requiresStar, hvty, hu2.1, hu2.2]
      | none =>
      rw [hmn] at hrun
      simp only at hrun
      cases hmb : matchBool (stripWS expr) with
      | some p =>
          obtain ⟨b, rest⟩ := p
          rw [hmb] at hrun
          simp only at hrun
          refine ih _ _ _ (chain'_push h ?_) hrun
          intro u _
          exact requiresStar_false_of_vtype (by refine ⟨?_, ?_, ?_⟩ <;> simp [Tok.type]) u
      | none =>
      rw [hmb] at hrun
      simp only at hrun
      cases hmo : matchOp (stripWS expr) with
      | some p =>
          obtain ⟨opText, rest⟩ := p
          rw [hmo] at hrun
          simp only at hrun
          refine ih _ _ _ (chain'_push h ?_) hrun
          intro u _
          refine requiresStar_false_of_vtype ?_ u
          rw [opBranchTok_type]
          refine ⟨?_, ?_, ?_⟩ <;> simp
      | none =>
      rw [hmo] at hrun
      simp only at hrun
      cases hmna : matchName (stripWS expr) with
      | some p =>
          obtain ⟨nm, ann, rest⟩ := p
          rw [hmna] at hrun
          simp only at hrun
          by_cases hp : prevTypeIn tokens ["number", "name", ")"]
          · rw [if_pos hp] at hrun
            exact ih _ _ _ (chain'_push_star h) hrun
          · rw [if_neg (by simpa using hp)] at hrun
            refine ih _ _ _ (chain'_push h ?_) hrun
            intro u hu
            exact requiresStar_false_numname (nameBranchTok_type nm ann)
              (prevTypeIn_false (by simpa using hp) hu)
      | none =>
      rw [hmna] at hrun
      simp only at hrun
      cases hmp : matchPunc (stripWS expr) with
      | some p =>
          obtain ⟨k, rest⟩ := p
          rw [hmp] at hrun
          simp only at hrun
          by_cases hp : (k == "(" && prevTypeIn tokens ["number", ")"]) = true
          · rw [if_pos hp] at hrun
            exact ih _ _ _ (chain'_push_star h) hrun
          · rw [if_neg hp] at hrun
            refine ih _ _ _ (chain'_push h ?_) hrun
            intro u hu
            have hk := matchPunc_mem hmp
            by_cases hkp : k = "("
            · subst hkp
              have hpt : prevTypeIn tokens ["number", ")"] = false := by
                cases hh : prevTypeIn tokens ["number", ")"]
                · rfl
                · exact absurd (by simp [hh]) hp
              have hu2 := prevTypeIn_false hpt hu
              simp only [List.mem_cons, List.mem_singleton, not_or] at hu2
              have hvty : (Tok.punc "(").type = "(" := rfl
              simp [requiresStar, hvty, hu2.1, hu2.2]
            · refine requiresStar_false_of_vtype ?_ u
              fin_cases hk
              · exact absurd rfl hkp
              · exact ⟨by decide, by decide, by decide⟩
              · exact ⟨by decide, by decide, by decide⟩
              · exact ⟨by decide, by decide, by decide⟩
              · exact ⟨by decide, by decide, by decide⟩
      | none =>
      rw [hmp] at hrun
      simp only at hrun
      cases hms : matchString (stripWS expr) with
      | some p =>
          obtain ⟨raw, rest⟩ := p
          rw [hms] at hrun
          simp only at hrun
          refine ih _ _ _ (chain'_push h ?_) hrun
          intro u _
          exact requiresStar_false_of_vtype (by refine ⟨?_, ?_, ?_⟩ <;> simp [Tok.type]) u
      | none =>
      rw [hms] at hrun
      simp only at hrun
      by_cases hkp : startsKeypair (stripWS expr)
      · rw [if_pos hkp] at hrun
        cases hlast : tokens.getLast? with
        | none => rw [hlast] at hrun; cases hrun
        | some t =>
            rw [hlast] at hrun
            simp only at hrun
            cases t with
            | str v safe latex =>
                have hne : tokens ≠ [] := by
                  intro hnil
                  rw [hnil] at hlast
                  cases hlast
                have hchain : List.Chain'
                    (fun u v => requiresStar u v = false) tokens.dropLast := by
                  have hsplit := List.dropLast_append_getLast hne
                  rw [← hsplit] at h
                  exact (List.chain'_append.mp h).1
                refine ih _ _ _ (chain'_push hchain ?_) hrun
                intro u _
                exact requiresStar_false_of_vtype
                  (by refine ⟨?_, ?_, ?_⟩ <;> simp [Tok.type]) u
            | num x => cases hrun
            | bool x => cases hrun
            | name a b c => cases hrun
            | func a b => cases hrun
            | op a b c => cases hrun
            | list a b => cases hrun
            | dict a => cases hrun
            | keypair a => cases hrun
            | range a b c => cases hrun
            | punc a => cases hrun
      · rw [if_neg hkp] at hrun
        by_cases hemp : (stripWS expr).isEmpty
        · rw [if_pos hemp] at hrun
          cases hrun
          exact h
        · rw [if_neg hemp] at hrun
          cases hrun

/-- C3 amended: for every input string that tokenizes successfully, the token
stream never contains one of the trigger pairs in direct adjacency: an
implicit multiplication operator is inserted between a number, name, or right
bracket and a following name; between a right bracket or name and a following
number; and between a number or right bracket and a following left
parenthesis.  No insertion separates two adjacent numbers or a name from a
following left parenthesis. -/
theorem tokenise_separated (s : String) (ts : List Tok) (h : tokenise s = .ok ts) :
    List.Chain' (fun u v => requiresStar u v = false) ts := by
  unfold tokenise at h
  by_cases he : s.isEmpty
  · rw [if_pos he] at h
    cases h
    exact List.chain'_nil
  · rw [if_neg he] at h
    exact tokeniseLoop_separated s _ _ _ _ List.chain'_nil h

theorem ratOfParts_noFrac (ds : List Char) : ratOfParts ds [] = (digitsVal ds : ℚ) := by
  unfold ratOfParts
  norm_num [show digitsVal [] = 0 from rfl]

/-- C3 counterexample: the tokenizer emits two adjacent number tokens for the
input of a number followed by a number, and a name directly followed by a
left parenthesis for a function call, without inserting an implicit
multiplication operator in either case, although the claim requires one in
both. -/
theorem tokenise_c3_counterexample :
    tokenise "2 3" = .ok [Tok.num (.real 2), Tok.num (.real 3)] ∧
    tokenise "x(1)" = .ok [Tok.name "x" [] false, Tok.punc "(",
      Tok.num (.real 1), Tok.punc ")"] := by
  constructor
  · have h : tokenise "2 3" = .ok [Tok.num (.real (ratOfParts ['2'] [])),
        Tok.num (.real (ratOfParts ['3'] []))] := rfl
    rw [h, ratOfParts_noFrac, ratOfParts_noFrac]
    norm_num [show digitsVal ['2'] = 2 from rfl, show digitsVal ['3'] = 3 from rfl]
  · have h : tokenise "x(1)" = .ok [Tok.name "x" [] false, Tok.punc "(",
        Tok.num (.real (ratOfParts ['1'] [])), Tok.punc ")"] := rfl
    rw [h, ratOfParts_noFrac]
    norm_num [show digitsVal ['1'] = 1 from rfl]

/-- Witness for C3: tokenizing the two-character input of a digit then a
letter inserts the implicit multiplication operator, and the resulting
stream satisfies the separation property. -/
theorem tokenise_separated_witness :
    tokenise "2x" = .ok [Tok.num (.real 2), starTok, Tok.name "x" [] false] ∧
    List.Chain' (fun u v => requiresStar u v = false)
      [Tok.num (.real 2), starTok, Tok.name "x" [] false] := by
  have h2 : tokenise "2x" = .ok [Tok.num (.real 2), starTok,
      Tok.name "x" [] false] := by
    have h : tokenise "2x" = .ok [Tok.num (.real (ratOfParts ['2'] [])), starTok,
        Tok.name "x" [] false] := rfl
    rw [h, ratOfParts_noFrac]
    norm_num [show digitsVal ['2'] = 2 from rfl]
  exact ⟨h2, tokenise_separated "2x" _ h2⟩

/-! ## Scope chain, function resolution, substitution and evaluation
(claims C1, C2, C6, C8)

Numbas.jme.Scope (lines 1192 to 1516), Array.prototype.merge (line 10908),
util.sortBy (line 10463), jme.substituteTree (line 680). -/

/-- A value held in the variables mapping of a scope.  Ordinary evaluation
stores tokens; the rewrite engine builds transient scopes whose variable
values are captured subtrees, which substituteTree recognizes by probing for
a tok property (line 702). -/
inductive VarVal where
| tok (t : Tok)
| tree (t : Tree)

/-- A function-definition record, jme.funcObj (line 2013): the globally
increasing id (line 2020), the lowercased name (line 2038), the typecheck
predicate over evaluated argument tokens, and a key into the table of
evaluation procedures (the procedure bodies are the builtin collaborators,
out of scope here; the key stands for the identity of the procedure). -/
structure FuncObj where
  id : ℕ
  fname : String
  typecheck : List Tok → Bool
  evalKey : ℕ

/-- A JME evaluation environment, jme.Scope (line 1192): own variables, own
function lists, names deleted at this level, and an optional parent. -/
inductive Scope where
| mk (varMap : List (String × VarVal))
     (functions : List (String × List FuncObj))
     (deleted : List String)
     (parent : Option Scope)

/-- The own variables mapping of a scope (the variables property; that word
is reserved in Lean). -/
def Scope.varMap : Scope → List (String × VarVal)
| .mk v _ _ _ => v

/-- The own functions mapping of a scope. -/
def Scope.functions : Scope → List (String × List FuncObj)
| .mk _ f _ _ => f

/-- The names marked deleted at this level of the scope. -/
def Scope.deleted : Scope → List String
| .mk _ _ d _ => d

/-- The parent of a scope, if any. -/
def Scope.parent : Scope → Option Scope
| .mk _ _ _ p => p

/-- Replace the own variables mapping of a scope. -/
def Scope.withVariables : Scope → List (String × VarVal) → Scope
| .mk _ f d p, v => .mk v f d p

/-- Assignment into a JavaScript object: overwrite the value in place when
the key is present, append the new key otherwise. -/
def jsSet {α : Type} (m : List (String × α)) (k : String) (v : α) :
    List (String × α) :=
  match m with
  | [] => [(k, v)]
  | (k2, v2) :: rest => if k2 == k then (k2, v) :: rest else (k2, v2) :: jsSet rest k v

/-- Scope.resolve for the variables collection (line 1254): walk the chain
from the child up, stopping at the first level that deletes or defines the
name. -/
def Scope.resolveVar : Scope → String → Option VarVal
| .mk vars _ del par, name =>
  if del.contains name then none
  else match vars.lookup name with
    | some v => some v
    | none =>
      match par with
      | some p => p.resolveVar name
      | none => none

/-- Scope.getVariable (line 1271). -/
def Scope.getVariable (s : Scope) (name : String) : Option VarVal :=
  s.resolveVar name

/-- Scope.setVariable (line 1279): the name is case-folded on write. -/
def Scope.setVariable (s : Scope) (name : String) (value : Tok) : Scope :=
  s.withVariables (jsSet s.varMap (strLower name) (.tok value))

/-- Stable insertion of a record into a list sorted by id; an equal id goes
after the existing entries, as a stable sort by the fnSort comparator
(line 1174) produces. -/
def insertById (x : FuncObj) : List FuncObj → List FuncObj
| [] => [x]
| y :: ys => if x.id < y.id then x :: y :: ys else y :: insertById x ys

/-- Stable sort by id, modelling Array.prototype.sort with the fnSort
comparator of util.sortBy (line 10463). -/
def sortById : List FuncObj → List FuncObj
| [] => []
| x :: xs => insertById x (sortById xs)

/-- Drop every element whose id equals that of the element before it,
keeping the first of each run (merge, lines 10918 to 10926). -/
def dedupByIdAux (prev : FuncObj) : List FuncObj → List FuncObj
| [] => []
| b :: rest => if prev.id = b.id then dedupByIdAux prev rest else b :: dedupByIdAux b rest

/-- Remove adjacent duplicates by id. -/
def dedupById : List FuncObj → List FuncObj
| [] => []
| a :: rest => a :: dedupByIdAux a rest

/-- Array.prototype.merge with the fnSort comparator (line 10908): when the
receiver is empty the argument is returned as a copy, unsorted; otherwise
the concatenation is sorted by id and adjacent duplicates are removed. -/
def fnMerge (a b : List FuncObj) : List FuncObj :=
  if a.isEmpty then b
  else dedupById (sortById (a ++ b))

/-- One level of the accumulator walk of Scope.getFunction: merge the own
definition list for the name into the accumulator when the level defines
the name. -/
def mergeStep (fns : List (String × List FuncObj)) (name : String)
    (o : List FuncObj) : List FuncObj :=
  match fns.lookup name with
  | some l => fnMerge o l
  | none => o

/-- The accumulator walk of Scope.getFunction (lines 1287 to 1300): merge
the own definition list of every level of the chain, child first.  The
per-name cache of the source is an optimization over immutable data and is
not modelled. -/
def Scope.getFunctionAux : Scope → String → List FuncObj → List FuncObj
| .mk _ fns _ none, name, o => mergeStep fns name o
| .mk _ fns _ (some p), name, o => p.getFunctionAux name (mergeStep fns name o)

/-- Scope.getFunction (line 1287): all definitions of the given name across
the scope chain. -/
def Scope.getFunction (s : Scope) (name : String) : List FuncObj :=
  s.getFunctionAux name []

/-- The argument list of a tree when the node carries one, mirroring the
undefined test on the args property. -/
def Tree.args? : Tree → Option (List Tree)
| .leaf _ => none
| .node _ a => some a

/-- The operations with custom substituteTree behaviour registered in this
file: isset (line 3449), map (line 3542), filter (line 3588), let
(line 3646) and apply (line 7230). -/
def substOps : List String := ["isset", "map", "filter", "let", "apply"]

mutual

/-- jme.substituteTree (line 680): replace bound names by the values the
scope holds for them.  A name bound to a tree is returned as that tree; a
name bound to a token is wrapped in a fresh leaf; an unbound name stays,
lowercased, when allowUnbound is set and raises the undefined-variable error
otherwise.  A compound node is rebuilt as a fresh node; the operations in
substOps substitute only some of their arguments.  The bound flag tested at
line 684 is never set anywhere in this source, so the test is omitted. -/
def substituteTree (scope : Scope) (allowUnbound : Bool) : Tree → Except Err Tree
| .leaf tok =>
  match tok with
  | .name n _ _ =>
    let nm := strLower n
    match scope.getVariable nm with
    | none =>
      if allowUnbound then .ok (.leaf (Tok.name nm [] false))
      else .error (.substituteTreeUndefinedVariable nm)
    | some (.tree t) => .ok t
    | some (.tok v) => .ok (.leaf v)
  | _ => .ok (.leaf tok)
| .node tok args =>
  if (tok.type == "function" || tok.type == "op") && substOps.contains tok.nameStr then
    if tok.nameStr == "map" || tok.nameStr == "filter" then
      match args with
      | a0 :: a1 :: a2 :: rest => do
          let a2s ← substituteTree scope allowUnbound a2
          .ok (.node tok (a0 :: a1 :: a2s :: rest))
      | _ => .ok (.node tok args)
    else if tok.nameStr == "let" then do
      let args2 ← substLetArgs scope allowUnbound 0 args.length args
      .ok (.node tok args2)
    else .ok (.node tok args)
  else do
    let args2 ← substList scope allowUnbound args
    .ok (.node tok args2)

/-- Substitute a list of argument subtrees in order. -/
def substList (scope : Scope) (allowUnbound : Bool) : List Tree → Except Err (List Tree)
| [] => .ok []
| t :: ts => do
    let t2 ← substituteTree scope allowUnbound t
    let ts2 ← substList scope allowUnbound ts
    .ok (t2 :: ts2)

/-- The argument walk of substituteTreeOps.let (line 3646): substitute the
value of every binding pair, that is the arguments at odd positions before
the final body. -/
def substLetArgs (scope : Scope) (allowUnbound : Bool) :
    ℕ → ℕ → List Tree → Except Err (List Tree)
| _, _, [] => .ok []
| i, n, t :: ts => do
    let t2 ←
      if i % 2 = 1 ∧ i < n - 1 then substituteTree scope allowUnbound t else pure t
    let ts2 ← substLetArgs scope allowUnbound (i + 1) n ts
    .ok (t2 :: ts2)

end

/-- The lazily evaluated operations: the initial list at line 1965 plus the
later pushes of assert (line 4075), try (line 4089), canonical_compare
(line 4208) and apply (line 7229). -/
def lazyOps : List String :=
  ["if", "switch", "repeat", "map", "let", "isa", "satisfy", "filter", "isset",
   "dict", "safe", "assert", "try", "canonical_compare", "apply"]

/-- The external collaborators of the evaluator: the table of evaluation
procedures of function-definition records (the builtin bodies, consumed
through the registration interface), and jme.contentsubvars (line 890),
which routes through the out-of-scope TeX and text substitution
utilities. -/
structure Ctx where
  fnImpl : ℕ → List Tree → Scope → Except Err Tok
  csv : String → Scope → String

/-- Is this token a name token flagged unbound (the check at line 1505)? -/
def Tok.isUnboundName : Tok → Bool
| .name _ _ u => u
| _ => false

/-- The name of an unbound name token. -/
def Tok.unboundNameStr : Tok → String
| .name n _ _ => n
| _ => ""

/-- The dispatch tail of the eager evaluation path (lines 1474 to 1510):
once the arguments are evaluated, collect the definitions of the name across
the scope chain, raise the undefined errors (with the implicit-multiplication
heuristic for function names) when there are none, and otherwise invoke the
first record whose typecheck accepts the evaluated argument tokens, falling
back to the no-matching-type errors. -/
def eagerDispatch (ctx : Ctx) (scope : Scope) (tokType op : String)
    (argToks : List Tok) : Except Err Tok :=
  let fns := scope.getFunction op
  if fns.isEmpty then
    if tokType == "function" then
      if op.length > 1 && !(scope.getFunction (op.drop 1)).isEmpty then
        .error (.functionMaybeImplicitMultiplication op (op.take 1) (op.drop 1))
      else .error (.functionNotDefined op)
    else .error (.opNotDefined op)
  else
    match fns.find? (fun fn => fn.typecheck argToks) with
    | some fn => ctx.fnImpl fn.evalKey (argToks.map Tree.leaf) scope
    | none =>
      match argToks.find? Tok.isUnboundName with
      | some t => .error (.noRightTypeUnboundName t.unboundNameStr)
      | none => .error (.noRightTypeDefinition op)

/-- Scope.prototype.evaluate from the substitution step on (lines 1413 to
1515).  The tree is first passed through substituteTree with unbound names
allowed, then the switch on the token type runs: numbers, booleans and
ranges evaluate to themselves; an unrealized list or dictionary evaluates
its entries; an unsafe string containing a brace is expanded by the
contentsubvars collaborator; a surviving name is looked up once more and
otherwise marked unbound; an operator or function either delegates lazily
with unevaluated argument subtrees or evaluates every argument left to
right, resolves the name through the scope chain and invokes the first
record whose typecheck accepts the evaluated tokens.  The fuel bounds the
recursion depth; the source recursion can grow beyond any structural measure
because substitution can enlarge the tree. -/
def evalTree (ctx : Ctx) : ℕ → Scope → Tree → Except Err Tok
| 0, _, _ => .error .outOfFuel
| fuel + 1, scope, tree0 => do
  let tree ← substituteTree scope true tree0
  let evalOp : String → String → Except Err Tok := fun tokType op =>
    if lazyOps.contains op then
      match scope.getFunction op with
      | [] => .error (.jsError "evaluate of undefined")
      | fn :: _ => ctx.fnImpl fn.evalKey tree.argsD scope
    else
      match tree.args? with
      | none => .error (.jsError "length of undefined")
      | some args => do
          let argToks ← args.mapM (evalTree ctx fuel scope)
          eagerDispatch ctx scope tokType op argToks
  match tree.tok with
  | .num v => .ok (.num v)
  | .bool b => .ok (.bool b)
  | .range a b c => .ok (.range a b c)
  | .list vars value =>
    match value with
    | some _ => .ok (.list vars value)
    | none =>
      match tree.args? with
      | none => .error (.jsError "length of undefined")
      | some args => do
          let vals ← args.mapM (evalTree ctx fuel scope)
          .ok (.list vals.length (some vals))
  | .dict value =>
    match value with
    | some _ => .ok (.dict value)
    | none =>
      match tree.args? with
      | none => .error (.jsError "length of undefined")
      | some args => do
          let pairs ← args.mapM (fun kp =>
            match kp with
            | .node (.keypair k) (a0 :: _) => do
                let v ← evalTree ctx fuel scope a0
                pure (k, v)
            | _ => .error (.jsError "malformed dictionary entry"))
          .ok (.dict (some (pairs.foldl (fun m p => jsSet m p.1 p.2) [])))
  | .str v safe latex =>
    if !safe && v.contains braceL then .ok (.str (ctx.csv v scope) false latex)
    else .ok (.str v safe latex)
  | .name n _ _ =>
    match scope.getVariable (strLower n) with
    | some (.tok v) => .ok v
    | some (.tree _) => .error (.jsError "tree-valued variable in evaluate")
    | none => .ok (.name n [] true)
  | .op n _ _ => evalOp "op" (strLower n)
  | .func n _ => evalOp "function" (strLower n)
  | .keypair k => .ok (.keypair k)
  | .punc k => .ok (.punc k)

/-! ## Claim C1: eager dispatch picks the first typechecking record -/

/-- A definition list in nondecreasing id order, the order addFunction
(line 1233) produces because ids increase with each funcObj construction. -/
def FnListAscending (l : List FuncObj) : Prop :=
  List.Chain' (fun a b => a.id ≤ b.id) l

/-- Every per-name definition list in every scope of the chain is in
ascending id order. -/
inductive ScopeFnsAscending : Scope → Prop
| mk {vars : List (String × VarVal)} {fns : List (String × List FuncObj)}
    {del : List String} {par : Option Scope}
    (hfns : ∀ p ∈ fns, FnListAscending p.2)
    (hpar : ∀ s, par = some s → ScopeFnsAscending s) :
    ScopeFnsAscending (.mk vars fns del par)

theorem insertById_ascending (x : FuncObj) :
    ∀ l : List FuncObj, FnListAscending l → FnListAscending (insertById x l) := by
  intro l
  induction l with
  | nil => intro _; simp [insertById, FnListAscending]
  | cons y ys ih =>
      intro h
      simp only [insertById]
      by_cases hlt : x.id < y.id
      · rw [if_pos hlt]
        exact List.chain'_cons.mpr ⟨Nat.le_of_lt hlt, h⟩
      · rw [if_neg hlt]
        have hys : FnListAscending (insertById x ys) := ih (List.Chain'.tail h)
        refine List.chain'_cons'.mpr ⟨?_, hys⟩
        intro z hz
        cases ys with
        | nil =>
            simp only [insertById, List.head?_cons, Option.mem_def,
              Option.some.injEq] at hz
            subst hz
            omega
        | cons w ws =>
            simp only [insertById] at hz
            by_cases hlt2 : x.id < w.id
            · rw [if_pos hlt2] at hz
              simp only [List.head?_cons, Option.mem_def, Option.some.injEq] at hz
              subst hz
              omega
            · rw [if_neg hlt2] at hz
              simp only [List.head?_cons, Option.mem_def, Option.some.injEq] at hz
              subst hz
              exact (List.chain'_cons.mp h).1

theorem sortById_ascending : ∀ l : List FuncObj, FnListAscending (sortById l) := by
  intro l
  induction l with
  | nil => simp [sortById, FnListAscending]
  | cons x xs ih => exact insertById_ascending x _ ih

theorem dedupByIdAux_ascending :
    ∀ (rest : List FuncObj) (prev : FuncObj),
      FnListAscending (prev :: rest) →
      FnListAscending (prev :: dedupByIdAux prev rest) := by
  intro rest
  induction rest with
  | nil => intro prev h; simpa [dedupByIdAux] using h
  | cons b bs ih =>
      intro prev h
      have hpb : prev.id ≤ b.id := (List.chain'_cons.mp h).1
      have hbbs : FnListAscending (b :: bs) := (List.chain'_cons.mp h).2
      simp only [dedupByIdAux]
      by_cases heq : prev.id = b.id
      · rw [if_pos heq]
        refine ih prev (List.chain'_cons'.mpr ⟨?_, List.Chain'.tail hbbs⟩)
        intro z hz
        have := (List.chain'_cons'.mp hbbs).1 z hz
        omega
      · rw [if_neg heq]
        exact List.chain'_cons.mpr ⟨hpb, ih b hbbs⟩

theorem dedupById_ascending (l : List FuncObj) (h : FnListAscending l) :
    FnListAscending (dedupById l) := by
  cases l with
  | nil => simpa [dedupById] using h
  | cons a rest => exact dedupByIdAux_ascending rest a h

theorem fnMerge_ascending (o l : List FuncObj) (hl : FnListAscending l) :
    FnListAscending (fnMerge o l) := by
  unfold fnMerge
  by_cases ho : o.isEmpty
  · rw [if_pos ho]
    exact hl
  · rw [if_neg ho]
    exact dedupById_ascending _ (sortById_ascending _)

theorem lookup_pair_mem {β : Type} :
    ∀ {l : List (String × β)} {k : String} {v : β},
      l.lookup k = some v → (k, v) ∈ l := by
  intro l
  induction l with
  | nil => intro k v h; cases h
  | cons p rest ih =>
      intro k v h
      obtain ⟨a, b⟩ := p
      cases hka : (k == a) with
      | true =>
          simp only [List.lookup_cons, hka] at h
          cases h
          have hk2 : k = a := by simpa using hka
          subst hk2
          exact List.mem_cons_self _ _
      | false =>
          simp only [List.lookup_cons, hka] at h
          exact List.mem_cons_of_mem _ (ih h)

theorem mergeStep_ascending (fns : List (String × List FuncObj)) (name : String)
    (o : List FuncObj) (h1 : ∀ p ∈ fns, FnListAscending p.2)
    (ho : FnListAscending o) : FnListAscending (mergeStep fns name o) := by
  rw [mergeStep]
  cases hl : fns.lookup name with
  | some l => exact fnMerge_ascending o l (h1 (name, l) (lookup_pair_mem hl))
  | none => exact ho

theorem getFunctionAux_ascending :
    ∀ (s : Scope) (name : String) (o : List FuncObj),
      ScopeFnsAscending s → FnListAscending o →
      FnListAscending (s.getFunctionAux name o)
| .mk vars fns del none, name, o, hs, ho => by
    cases hs with
    | mk hs1 hs2 =>
    simp only [Scope.getFunctionAux]
    exact mergeStep_ascending fns name o hs1 ho
| .mk vars fns del (some p), name, o, hs, ho => by
    cases hs with
    | mk hs1 hs2 =>
    simp only [Scope.getFunctionAux]
    exact getFunctionAux_ascending p name _ (hs2 p rfl)
      (mergeStep_ascending fns name o hs1 ho)

/-- C1 supporting fact: with ascending per-scope lists, the list collected by
Scope.getFunction is in ascending id order. -/
theorem getFunction_ascending (s : Scope) (name : String)
    (hs : ScopeFnsAscending s) : FnListAscending (s.getFunction name) :=
  getFunctionAux_ascending s name [] hs (by simp [FnListAscending])

theorem asc_head_le {a : FuncObj} {rest : List FuncObj}
    (h : FnListAscending (a :: rest)) : ∀ g ∈ rest, a.id ≤ g.id := by
  induction rest generalizing a with
  | nil => intro g hg; cases hg
  | cons b bs ih =>
      intro g hg
      rw [FnListAscending, List.chain'_cons] at h
      cases hg with
      | head => exact h.1
      | tail _ hg2 => exact le_trans h.1 (ih h.2 g hg2)

/-- On an ascending list, the first record accepted by the predicate has the
least id among all accepted records. -/
theorem find_first_min :
    ∀ (l : List FuncObj), FnListAscending l →
      ∀ (P : FuncObj → Bool) (fn : FuncObj), l.find? P = some fn →
        ∀ g ∈ l, P g = true → fn.id ≤ g.id := by
  intro l
  induction l with
  | nil => intro _ P fn hf; cases hf
  | cons a rest ih =>
      intro h P fn hf g hg hPg
      cases hPa : P a with
      | true =>
          simp only [List.find?_cons, hPa] at hf
          cases hf
          cases hg with
          | head => exact le_refl _
          | tail _ hg2 => exact asc_head_le h g hg2
      | false =>
          simp only [List.find?_cons, hPa] at hf
          cases hg with
          | head => rw [hPg] at hPa; cases hPa
          | tail _ hg2 => exact ih (List.Chain'.tail h) P fn hf g hg2 hPg

theorem substOps_not_contains {n : String}
    (h : lazyOps.contains (strLower n) = false) : substOps.contains n = false := by
  cases hc : substOps.contains n
  · rfl
  · exfalso
    have hmem : n ∈ substOps := List.elem_iff.mp hc
    fin_cases hmem <;> exact absurd h (by decide)

theorem substituteTree_nonsubst_node (scope : Scope) (tok : Tok)
    (args sargs : List Tree)
    (hna : substOps.contains tok.nameStr = false)
    (hsub : substList scope true args = Except.ok sargs) :
    substituteTree scope true (Tree.node tok args) =
      Except.ok (Tree.node tok sargs) := by
  have hcond : ((tok.type == "function" || tok.type == "op")
      && substOps.contains tok.nameStr) = false := by
    rw [hna]; simp
  unfold substituteTree
  rw [hcond]
  simp only [Bool.false_eq_true, if_false]
  rw [hsub]
  rfl

theorem evalTree_op_eager (ctx : Ctx) (fuel : ℕ) (scope : Scope)
    (n : String) (pf pr : Bool) (args sargs : List Tree)
    (hlazy : lazyOps.contains (strLower n) = false)
    (hsub : substList scope true args = Except.ok sargs) :
    evalTree ctx (fuel + 1) scope (Tree.node (Tok.op n pf pr) args) =
      (sargs.mapM (evalTree ctx fuel scope)).bind
        (eagerDispatch ctx scope "op" (strLower n)) := by
  have hna : substOps.contains n = false := substOps_not_contains hlazy
  have hst := substituteTree_nonsubst_node scope (Tok.op n pf pr) args sargs hna hsub
  have h1 : evalTree ctx (fuel + 1) scope (Tree.node (Tok.op n pf pr) args) =
      if lazyOps.contains (strLower n) = true then
        (match scope.getFunction (strLower n) with
        | [] => Except.error (Err.jsError "evaluate of undefined")
        | fn :: _ => ctx.fnImpl fn.evalKey sargs scope)
      else
        (sargs.mapM (evalTree ctx fuel scope)).bind
          (eagerDispatch ctx scope "op" (strLower n)) := by
    simp only [evalTree]
    rw [hst]
    rfl
  rw [h1, hlazy]
  simp

theorem evalTree_func_eager (ctx : Ctx) (fuel : ℕ) (scope : Scope)
    (n : String) (an : List String) (args sargs : List Tree)
    (hlazy : lazyOps.contains (strLower n) = false)
    (hsub : substList scope true args = Except.ok sargs) :
    evalTree ctx (fuel + 1) scope (Tree.node (Tok.func n an) args) =
      (sargs.mapM (evalTree ctx fuel scope)).bind
        (eagerDispatch ctx scope "function" (strLower n)) := by
  have hna : substOps.contains n = false := substOps_not_contains hlazy
  have hst := substituteTree_nonsubst_node scope (Tok.func n an) args sargs hna hsub
  have h1 : evalTree ctx (fuel + 1) scope (Tree.node (Tok.func n an) args) =
      if lazyOps.contains (strLower n) = true then
        (match scope.getFunction (strLower n) with
        | [] => Except.error (Err.jsError "evaluate of undefined")
        | fn :: _ => ctx.fnImpl fn.evalKey sargs scope)
      else
        (sargs.mapM (evalTree ctx fuel scope)).bind
          (eagerDispatch ctx scope "function" (strLower n)) := by
    simp only [evalTree]
    rw [hst]
    rfl
  rw [h1, hlazy]
  simp

/-- The first failing argument of a left-to-right effectful map aborts the
whole map with its error. -/
theorem mapM_append_error {α β : Type} (f : α → Except Err β) :
    ∀ (pre : List α) (a : α) (rest : List α) (bs : List β) (e : Err),
      pre.mapM f = Except.ok bs → f a = Except.error e →
      (pre ++ a :: rest).mapM f = Except.error e := by
  intro pre
  induction pre with
  | nil =>
      intro a rest bs e _ ha
      rw [List.nil_append, List.mapM_cons, ha]
      rfl
  | cons x xs ih =>
      intro a rest bs e hpre ha
      rw [List.mapM_cons] at hpre
      cases hx : f x with
      | error ex =>
          rw [hx] at hpre
          exact nomatch (show (Except.error ex : Except Err (List β))
            = Except.ok bs from hpre)
      | ok b =>
          rw [hx] at hpre
          cases hxs : xs.mapM f with
          | error e2 =>
              rw [hxs] at hpre
              exact nomatch (show (Except.error e2 : Except Err (List β))
                = Except.ok bs from hpre)
          | ok bs2 =>
              have h2 := ih a rest bs2 e hxs ha
              rw [List.cons_append, List.mapM_cons, hx, h2]
              rfl

/-- The shared facts about an eager evaluation that has been reduced to
argument mapping followed by eagerDispatch: the collected definition list is
ascending, the first argument error aborts the node with that error, and a
successful argument pass invokes the first accepting record, which has least
id among all accepting records. -/
theorem eagerCore (ctx : Ctx) (fuel : ℕ) (scope : Scope) (tokType op : String)
    (sargs : List Tree) (res : Except Err Tok)
    (hasc : ScopeFnsAscending scope)
    (hred : res = (sargs.mapM (evalTree ctx fuel scope)).bind
      (eagerDispatch ctx scope tokType op)) :
    FnListAscending (scope.getFunction op) ∧
    (∀ pre a rest bs e, sargs = pre ++ a :: rest →
        pre.mapM (evalTree ctx fuel scope) = Except.ok bs →
        evalTree ctx fuel scope a = Except.error e →
        res = Except.error e) ∧
    (∀ argToks fn, sargs.mapM (evalTree ctx fuel scope) = Except.ok argToks →
        (scope.getFunction op).find? (fun f => f.typecheck argToks) = some fn →
        res = ctx.fnImpl fn.evalKey (argToks.map Tree.leaf) scope ∧
        ∀ g ∈ scope.getFunction op, g.typecheck argToks = true →
          fn.id ≤ g.id) := by
  refine ⟨getFunction_ascending scope op hasc, ?_, ?_⟩
  · intro pre a rest bs e hs hpre ha
    subst hs
    rw [hred, mapM_append_error (evalTree ctx fuel scope) pre a rest bs e hpre ha]
    rfl
  · intro argToks fn hmap hfind
    have hne : (scope.getFunction op).isEmpty = false := by
      cases hl : scope.getFunction op with
      | nil => rw [hl] at hfind; simp at hfind
      | cons x xs => rfl
    refine ⟨?_, find_first_min _ (getFunction_ascending scope op hasc) _ fn hfind⟩
    rw [hred, hmap]
    show eagerDispatch ctx scope tokType op argToks = _
    simp only [eagerDispatch, hne, Bool.false_eq_true, if_false, hfind]

/-- C1 (amended).  For an operator or function node whose lower-cased name is
not in the lazy set, under the proviso that every per-name definition list in
every scope of the chain is already in ascending id order (the order in which
addFunction registers records it has just constructed), evaluation reduces to
substituting the tree, evaluating the substituted arguments left to right
(the first argument error aborting the node with that error), and invoking
the first record of the collected definition list whose typecheck accepts the
evaluated argument tokens; that record then has the least sequence id among
all accepting records, so resolution deterministically picks the
earliest-constructed matching overload.  Without the ascending proviso the
conclusion fails: see the counterexample. -/
theorem evalTree_eager_dispatch_spec (ctx : Ctx) (fuel : ℕ) (scope : Scope)
    (tk : Tok) (n : String) (pf pr : Bool) (an : List String)
    (args sargs : List Tree)
    (htk : tk = Tok.op n pf pr ∨ tk = Tok.func n an)
    (hasc : ScopeFnsAscending scope)
    (hlazy : lazyOps.contains (strLower n) = false)
    (hsub : substList scope true args = Except.ok sargs) :
    FnListAscending (scope.getFunction (strLower n)) ∧
    (∀ pre a rest bs e, sargs = pre ++ a :: rest →
        pre.mapM (evalTree ctx fuel scope) = Except.ok bs →
        evalTree ctx fuel scope a = Except.error e →
        evalTree ctx (fuel + 1) scope (Tree.node tk args) = Except.error e) ∧
    (∀ argToks fn, sargs.mapM (evalTree ctx fuel scope) = Except.ok argToks →
        (scope.getFunction (strLower n)).find? (fun f => f.typecheck argToks)
          = some fn →
        evalTree ctx (fuel + 1) scope (Tree.node tk args) =
          ctx.fnImpl fn.evalKey (argToks.map Tree.leaf) scope ∧
        ∀ g ∈ scope.getFunction (strLower n), g.typecheck argToks = true →
          fn.id ≤ g.id) := by
  cases htk with
  | inl h =>
      subst h
      exact eagerCore ctx fuel scope "op" (strLower n) sargs _ hasc
        (evalTree_op_eager ctx fuel scope n pf pr args sargs hlazy hsub)
  | inr h =>
      subst h
      exact eagerCore ctx fuel scope "function" (strLower n) sargs _ hasc
        (evalTree_func_eager ctx fuel scope n an args sargs hlazy hsub)

/-- A typecheck-anything record constructed first (sequence id 0). -/
def c1f0 : FuncObj :=
  { id := 0, fname := "f", typecheck := fun _ => true, evalKey := 0 }

/-- A typecheck-anything record constructed second (sequence id 1). -/
def c1f1 : FuncObj :=
  { id := 1, fname := "f", typecheck := fun _ => true, evalKey := 1 }

/-- A context whose evaluation procedures report which record was invoked. -/
def c1Ctx : Ctx :=
  { fnImpl := fun k _ _ => Except.ok (Tok.bool (k == 1)), csv := fun s _ => s }

/-- A single scope holding the later-constructed record before the earlier
one, the state addFunction produces when records are registered in the
opposite order to their construction. -/
def c1ScopeA : Scope := Scope.mk [] [("f", [c1f1, c1f0])] [] none

/-- A single scope holding the two records in ascending id order. -/
def c1ScopeB : Scope := Scope.mk [] [("f", [c1f0, c1f1])] [] none

/-- C1 counterexample.  Both records typecheck the empty argument list and
record c1f0 has the smaller sequence id, yet with the records stored in the
order [c1f1, c1f0] in a single scope, the collected definition list is
returned in that stored order without sorting (the merge of line 1295 hits
the empty-receiver fast path of line 10910 and skips the sort), and
evaluation invokes c1f1 rather than the earliest-registered record c1f0: the
result is the invoked record's report token true, not false. -/
theorem evalTree_overload_counterexample :
    c1f0.id < c1f1.id ∧
    c1f0.typecheck [] = true ∧
    Scope.getFunction c1ScopeA "f" = [c1f1, c1f0] ∧
    evalTree c1Ctx 2 c1ScopeA (Tree.node (Tok.op "f" false false) []) =
      Except.ok (Tok.bool true) ∧
    c1Ctx.fnImpl c1f1.evalKey [] c1ScopeA = Except.ok (Tok.bool true) ∧
    c1Ctx.fnImpl c1f0.evalKey [] c1ScopeA = Except.ok (Tok.bool false) :=
  ⟨by decide, rfl, rfl, rfl, rfl, rfl⟩

/-- C1 witness: the amended dispatch theorem applied to the ascending scope
c1ScopeB, an operator node with no arguments, and the first accepting record
c1f0. -/
theorem evalTree_eager_dispatch_spec_witness :
    evalTree c1Ctx 2 c1ScopeB (Tree.node (Tok.op "f" false false) []) =
      c1Ctx.fnImpl c1f0.evalKey (List.map Tree.leaf []) c1ScopeB ∧
    c1f0.id ≤ c1f1.id := by
  have hasc : ScopeFnsAscending c1ScopeB := by
    refine ScopeFnsAscending.mk ?_ ?_
    · intro p hp
      fin_cases hp
      · show FnListAscending [c1f0, c1f1]
        refine List.chain'_cons.mpr ⟨by decide, ?_⟩
        exact List.chain'_singleton _
    · intro s h
      exact Option.noConfusion h
  have h := evalTree_eager_dispatch_spec c1Ctx 1 c1ScopeB (Tok.op "f" false false)
    "f" false false [] [] [] (Or.inl rfl) hasc (by decide) rfl
  obtain ⟨heval, hmin⟩ := h.2.2 [] c1f0 rfl rfl
  refine ⟨heval, ?_⟩
  refine hmin c1f1 ?_ rfl
  rw [show c1ScopeB.getFunction (strLower "f") = [c1f0, c1f1] from rfl]
  exact List.mem_cons_of_mem _ (List.mem_cons_self _ _)

/-! ## Dependency-ordered variable resolution (claims C2 and C8)

jme.variables.computeVariable (lines 6683 to 6733), the variables branch of
Scope.prototype.evaluate (lines 1393 to 1400), Scope.setVariable
(line 1279) and the Scope constructor with extras (lines 1216 to 1220). -/

/-- One definition of the todo dictionary handed to computeVariable: the
names the definition uses (the vars property) and the compiled definition
tree, absent for an empty definition. -/
structure VarDef where
  vars : List String
  tree : Option Tree

/-- One step of the dependency loop of computeVariable (lines 6703 to 6722):
when the own variables object does not hold the dependency, recurse through
the compute function with the current name prepended to the path
(newpath.splice(0,0,name) at line 6710); a circular-reference or
variable-not-defined error from the recursion is rethrown as it is, every
other error is wrapped as error-computing-dependency naming the dependency.
The fuel-exhaustion marker of this embedding passes through unchanged so
that exhaustion stays distinguishable from errors of the source. -/
def computeDepStep
    (compute : String → List (String × VarDef) → Scope → List String →
      Except Err (Scope × Option VarVal))
    (todo : List (String × VarDef)) (name : String) (path : List String)
    (sc : Scope) (x : String) : Except Err Scope :=
  if (sc.varMap.lookup x).isSome then pure sc
  else
    match compute x todo sc (name :: path) with
    | .ok (sc2, _) => pure sc2
    | .error (.circularReference nm p) => .error (.circularReference nm p)
    | .error (.variableNotDefined nm) => .error (.variableNotDefined nm)
    | .error .outOfFuel => .error .outOfFuel
    | .error e => .error (.errorComputingDependency x e)

/-- jme.variables.computeVariable (lines 6683 to 6733): return the value
already held for the name (the raw own entry, line 6686) when the scope
chain resolves the name; raise the circular-reference error naming the path
when the name is already being computed; look the name up in the todo
dictionary; compute every dependency the own variables object does not hold
yet; then evaluate the definition tree in the accumulated scope and write
the result into the own variables object under the raw name (line 6728).
The mutated scope is threaded explicitly; the fuel bounds the recursion
depth of the source, which recurses through the computeFn parameter. -/
def computeVariable (ctx : Ctx) : ℕ → String → List (String × VarDef) →
    Scope → List String → Except Err (Scope × Option VarVal)
| 0, _, _, _, _ => .error .outOfFuel
| fuel + 1, name, todo, scope, path =>
  if (scope.getVariable name).isSome then .ok (scope, scope.varMap.lookup name)
  else if path.contains name then .error (.circularReference name path)
  else
    match todo.lookup name with
    | none => .error (.variableNotDefined name)
    | some v => do
        let scope2 ← v.vars.foldlM
          (computeDepStep (computeVariable ctx fuel) todo name path) scope
        match v.tree with
        | none => .error (.emptyDefinition name)
        | some t =>
          match evalTree ctx (fuel + 1) scope2 t with
          | .error e => .error (.errorEvaluatingVariable name e)
          | .ok tok =>
            let m2 := jsSet scope2.varMap name (.tok tok)
            .ok (scope2.withVariables m2, m2.lookup name)

/-- Unfolding of computeVariable on a name the scope does not resolve, the
path does not hold and the todo dictionary defines: the dependency loop runs
and its resulting scope feeds the definition evaluation. -/
theorem computeVariable_step (ctx : Ctx) (fuel : ℕ) (name : String)
    (todo : List (String × VarDef)) (scope : Scope) (path : List String)
    (hg : scope.getVariable name = none)
    (hp : path.contains name = false)
    (v : VarDef) (ht : todo.lookup name = some v) :
    computeVariable ctx (fuel + 1) name todo scope path =
      (v.vars.foldlM (computeDepStep (computeVariable ctx fuel) todo name path)
          scope).bind
        (fun scope2 =>
          match v.tree with
          | none => Except.error (Err.emptyDefinition name)
          | some t =>
            match evalTree ctx (fuel + 1) scope2 t with
            | .error e => .error (.errorEvaluatingVariable name e)
            | .ok tok =>
              .ok (scope2.withVariables (jsSet scope2.varMap name (.tok tok)),
                (jsSet scope2.varMap name (.tok tok)).lookup name)) := by
  simp only [computeVariable, hg, Option.isSome_none, Bool.false_eq_true,
    if_false, hp, ht]
  rfl

/-- C2 (amended).  For a two-name dependency cycle between names a and b
that the scope does not hold, resolution of a terminates for every fuel
beyond the cycle length with the circular-reference error: the resolver
recurses from a to b and back to a, where the path check of line 6693 fires.
The reported error names a and the path [b, a] - the breadcrumbs list the
in-progress names innermost first, because line 6710 prepends the current
name - not [a, b] as the specification states. -/
theorem computeVariable_cycle_spec (ctx : Ctx) (fuel : ℕ) (a b : String)
    (todo : List (String × VarDef)) (scope : Scope) (ta tb : Option Tree)
    (hab : a ≠ b)
    (hga : scope.getVariable a = none) (hgb : scope.getVariable b = none)
    (hra : scope.varMap.lookup a = none) (hrb : scope.varMap.lookup b = none)
    (hta : todo.lookup a = some { vars := [b], tree := ta })
    (htb : todo.lookup b = some { vars := [a], tree := tb }) :
    computeVariable ctx (fuel + 3) a todo scope [] =
      Except.error (Err.circularReference a [b, a]) := by
  have h1 : computeVariable ctx (fuel + 1) a todo scope [b, a] =
      Except.error (Err.circularReference a [b, a]) := by
    have hc : List.contains [b, a] a = true :=
      List.elem_iff.mpr (List.mem_cons_of_mem _ (List.mem_cons_self _ _))
    simp only [computeVariable, hga, Option.isSome_none, Bool.false_eq_true,
      if_false, hc, if_true]
  have h2 : computeVariable ctx (fuel + 1 + 1) b todo scope [a] =
      Except.error (Err.circularReference a [b, a]) := by
    have hc : List.contains [a] b = false := by
      cases hv : b == a with
      | true => exact absurd (eq_of_beq hv) (Ne.symm hab)
      | false => simp [List.contains, List.elem, hv]
    have hstep : computeDepStep (computeVariable ctx (fuel + 1)) todo b [a]
        scope a = Except.error (Err.circularReference a [b, a]) := by
      unfold computeDepStep
      rw [hra]
      simp only [Option.isSome_none, Bool.false_eq_true, if_false, h1]
    rw [computeVariable_step ctx (fuel + 1) b todo scope [a] hgb hc _ htb]
    rw [List.foldlM_cons, hstep]
    rfl
  have h3 : computeVariable ctx (fuel + 1 + 1 + 1) a todo scope [] =
      Except.error (Err.circularReference a [b, a]) := by
    have hc : List.contains ([] : List String) a = false := rfl
    have hstep : computeDepStep (computeVariable ctx (fuel + 1 + 1)) todo a []
        scope b = Except.error (Err.circularReference a [b, a]) := by
      unfold computeDepStep
      rw [hrb]
      simp only [Option.isSome_none, Bool.false_eq_true, if_false, h2]
    rw [computeVariable_step ctx (fuel + 1 + 1) a todo scope [] hga hc _ hta]
    rw [List.foldlM_cons, hstep]
    rfl
  exact h3

/-- A context for concrete runs whose evaluation procedures are never
consulted. -/
def cvCtx : Ctx :=
  { fnImpl := fun _ _ _ => Except.error (Err.jsError "no implementation"),
    csv := fun s _ => s }

/-- The todo dictionary of the two-variable cycle of the specification:
a defined by the expression b, b defined by the expression a. -/
def cvTodo : List (String × VarDef) :=
  [("a", { vars := ["b"], tree := some (Tree.leaf (Tok.name "b" [] false)) }),
   ("b", { vars := ["a"], tree := some (Tree.leaf (Tok.name "a" [] false)) })]

/-- The empty scope the cycle is resolved against. -/
def cvScope : Scope := Scope.mk [] [] [] none

/-- C2 counterexample: resolving the cycle a = b, b = a against the empty
scope terminates with the circular-reference error naming a and the path
[b, a], which is not the path [a, b] the specification states. -/
theorem computeVariable_c2_counterexample :
    computeVariable cvCtx 3 "a" cvTodo cvScope [] =
      Except.error (Err.circularReference "a" ["b", "a"]) ∧
    (["b", "a"] : List String) ≠ ["a", "b"] :=
  ⟨rfl, by decide⟩

/-- C2 witness: the cycle theorem applied to the concrete two-variable todo
dictionary, the empty scope and the least sufficient fuel. -/
theorem computeVariable_cycle_spec_witness :
    computeVariable cvCtx 3 "a" cvTodo cvScope [] =
      Except.error (Err.circularReference "a" ["b", "a"]) :=
  computeVariable_cycle_spec cvCtx 0 "a" "b" cvTodo cvScope
    (some (Tree.leaf (Tok.name "b" [] false)))
    (some (Tree.leaf (Tok.name "a" [] false)))
    (by decide) rfl rfl rfl rfl rfl rfl

/-! ## Case folding of variable names (claim C8) -/

/-- The variables branch of Scope.prototype.evaluate (lines 1393 to 1400):
when a dictionary of variables is supplied, a child scope is created and
each entry is written into its own variables object under the raw supplied
key (line 1397), without case folding; without a dictionary the scope is
used as it is. -/
def Scope.evalScope (s : Scope) : Option (List (String × Tok)) → Scope
| none => s
| some vars =>
  Scope.mk (vars.foldl (fun m p => jsSet m p.1 (VarVal.tok p.2)) []) []
    [] (some s)

/-- A sequence of writes through Scope.setVariable. -/
def applySetVars (s : Scope) (ops : List (String × Tok)) : Scope :=
  ops.foldl (fun sc p => sc.setVariable p.1 p.2) s

/-- The Scope constructor handed extra variables (lines 1216 to 1220): each
extra is written through setVariable into the fresh scope. -/
def scopeOfExtras (par : Option Scope) (extras : List (String × Tok)) : Scope :=
  applySetVars (Scope.mk [] [] [] par) extras

/-- Every key of the mapping is its own lower-casing: the mapping cannot
hold the same name in two different cases. -/
def keysLower (m : List (String × VarVal)) : Prop :=
  ∀ p ∈ m, strLower p.1 = p.1

theorem charToLower_idem (c : Char) : c.toLower.toLower = c.toLower := by
  unfold Char.toLower
  by_cases h : c.toNat ≥ 65 ∧ c.toNat ≤ 90
  · have hv : (c.toNat + 32).isValidChar := Or.inl (by omega)
    have ht : (Char.ofNat (c.toNat + 32)).toNat = c.toNat + 32 := by
      unfold Char.ofNat
      rw [dif_pos hv]
      rfl
    simp only [if_pos h, ht]
    rw [if_neg (by omega)]
  · simp only [if_neg h]

theorem strLower_idem (s : String) : strLower (strLower s) = strLower s := by
  unfold strLower
  have hd : ((s.data.map Char.toLower).asString).data = s.data.map Char.toLower :=
    rfl
  rw [hd, List.map_map]
  apply congrArg List.asString
  exact List.map_congr_left (fun c _ => charToLower_idem c)

theorem jsSet_keysLower (k : String) (v : VarVal) (hk : strLower k = k) :
    ∀ m : List (String × VarVal), keysLower m → keysLower (jsSet m k v) := by
  intro m
  induction m with
  | nil =>
      intro _ p hp
      cases hp with
      | head => exact hk
      | tail _ h2 => cases h2
  | cons q rest ih =>
      intro hm
      obtain ⟨k2, v2⟩ := q
      simp only [jsSet]
      by_cases hq : k2 == k
      · rw [if_pos hq]
        intro p hp
        cases hp with
        | head => exact hm (k2, v2) (List.mem_cons_self _ _)
        | tail _ h2 => exact hm _ (List.mem_cons_of_mem _ h2)
      · rw [if_neg hq]
        intro p hp
        cases hp with
        | head => exact hm (k2, v2) (List.mem_cons_self _ _)
        | tail _ h2 =>
            exact ih (fun q hq2 => hm q (List.mem_cons_of_mem _ hq2)) p h2

theorem setVariable_keysLower (s : Scope) (n : String) (v : Tok)
    (h : keysLower s.varMap) : keysLower ((s.setVariable n v).varMap) := by
  cases s with
  | mk vm f d p =>
      exact jsSet_keysLower (strLower n) (.tok v) (strLower_idem n) vm h

/-- C8 (amended).  The writers that case-fold keep the own variables mapping
free of a second spelling of any name: any sequence of setVariable writes
preserves the all-keys-lowercase invariant, and a scope constructed from
extra variables satisfies it outright, because the constructor routes every
extra through setVariable (line 1219), which lower-cases the key
(line 1280).  The invariant does not extend to the other two writers the
original claim lists: Scope.prototype.evaluate with a supplied dictionary
and computeVariable write raw keys - see the counterexample. -/
theorem scope_varMap_keysLower_spec :
    (∀ (s : Scope) (ops : List (String × Tok)), keysLower s.varMap →
      keysLower ((applySetVars s ops).varMap)) ∧
    (∀ (par : Option Scope) (extras : List (String × Tok)),
      keysLower ((scopeOfExtras par extras).varMap)) := by
  have hseq : ∀ (ops : List (String × Tok)) (s : Scope), keysLower s.varMap →
      keysLower ((applySetVars s ops).varMap) := by
    intro ops
    induction ops with
    | nil => intro s h; exact h
    | cons op rest ih =>
        intro s h
        exact ih (s.setVariable op.1 op.2) (setVariable_keysLower s op.1 op.2 h)
  refine ⟨fun s ops h => hseq ops s h, fun par extras => ?_⟩
  exact hseq extras (Scope.mk [] [] [] par) (fun p hp => nomatch hp)

/-- The todo dictionary defining the upper-case name A by a constant. -/
def c8Todo : List (String × VarDef) :=
  [("A", { vars := [], tree := some (Tree.leaf (Tok.num (.real 1))) })]

/-- A scope already holding the lower-case spelling of the same name. -/
def c8Scope : Scope :=
  Scope.mk [("a", VarVal.tok (Tok.num (.real 2)))] [] [] none

/-- C8 counterexample.  Scope.prototype.evaluate with a supplied dictionary
writes the raw keys (line 1397): the dictionary holding both spellings X and
x produces a scope whose own mapping holds both.  computeVariable writes the
raw computed name (line 6728): computing A against a scope holding a leaves
the mapping holding both a and A.  In both runs the resulting mapping holds
the same variable name in two different cases. -/
theorem scope_case_fold_counterexample :
    (Scope.evalScope (Scope.mk [] [] [] none)
        (some [("X", Tok.num (.real 1)), ("x", Tok.num (.real 2))])).varMap =
      [("X", VarVal.tok (Tok.num (.real 1))),
       ("x", VarVal.tok (Tok.num (.real 2)))] ∧
    strLower "X" = "x" ∧
    computeVariable cvCtx 2 "A" c8Todo c8Scope [] =
      Except.ok (Scope.mk [("a", VarVal.tok (Tok.num (.real 2))),
          ("A", VarVal.tok (Tok.num (.real 1)))] [] [] none,
        some (VarVal.tok (Tok.num (.real 1)))) ∧
    strLower "A" = "a" :=
  ⟨rfl, rfl, rfl, rfl⟩

/-- C8 witness: the invariant theorem applied to a concrete scope, a write
of an upper-case name, and a concrete construction with extras. -/
theorem scope_varMap_keysLower_spec_witness :
    keysLower ((applySetVars (Scope.mk [] [] [] none)
      [("X", Tok.num (.real 1))]).varMap) ∧
    keysLower ((scopeOfExtras none [("Y", Tok.num (.real 2))]).varMap) :=
  ⟨scope_varMap_keysLower_spec.1 (Scope.mk [] [] [] none)
      [("X", Tok.num (.real 1))] (fun _ hp => nomatch hp),
    scope_varMap_keysLower_spec.2 none [("Y", Tok.num (.real 2))]⟩

/-! ## The pattern matcher (claims C4, C5, C6, C7)

Numbas.jme.rules: matchTree (line 5877), getCommutingTerms (line 5821),
isEndTerm and endTermNames (line 5796), the commutative table (line 1985),
Rule (line 5718) and the simplification loop (line 4338). -/

/-- The captures dictionary a successful match returns: matched group names
to subtrees, insertion ordered. -/
abbrev Captures := List (String × Tree)

/-- The operations the matcher treats as commutative (the table at
line 1985): multiplication, addition, boolean conjunction and equality. -/
def commutative : List String := ["*", "+", "and", "="]

mutual

/-- isEndTerm (line 5801): strip the wrappers m_all, m_pm, m_not, m_commute
and the semicolon grouping, recurse into every alternative of m_any, and
test the remaining token against the endTermNames table (the names ??,
m_nothing and m_number, line 5796).  A wrapper token carried by a leaf has
no first argument for the source to descend into (it would fault); such
malformed patterns fall through to the final name test here. -/
def isEndTerm : Tree → Bool
| .leaf tok => isName tok "??" || isName tok "m_nothing" || isName tok "m_number"
| .node tok args =>
  if (tok.type == "function" && (tok.nameStr == "m_all" || tok.nameStr == "m_pm"
      || tok.nameStr == "m_not" || tok.nameStr == "m_commute"))
      || isOp tok ";" then
    match args with
    | a0 :: _ => isEndTerm a0
    | [] => false
  else if tok.type == "function" && tok.nameStr == "m_any" then
    isEndTermAny args
  else
    isName tok "??" || isName tok "m_nothing" || isName tok "m_number"

/-- The m_any loop of isEndTerm: true when any alternative is an end term. -/
def isEndTermAny : List Tree → Bool
| [] => false
| a :: rest => isEndTerm a || isEndTermAny rest

end

/-- The subtraction rewrite at the head of getCommutingTerms (line 5827):
when collecting terms of a sum, a difference a - b is recast as
a + (-u b). -/
def plusRewrite (op : String) (t : Tree) : Tree :=
  match t with
  | .node tk (x :: y :: _) =>
    if op == "+" && isOp tk "-" then
      .node (Tok.op "+" false false) [x, .node (Tok.op "-u" false false) [y]]
    else t
  | _ => t

/-- The semicolon-stripping loop of getCommutingTerms (lines 5843 to 5846):
descend through ; group nodes, collecting each group name. -/
def stripSemi : Tree → List String → Tree × List String
| t@(.node tk (a0 :: a1 :: _)), acc =>
  if isOp tk ";" then stripSemi a0 (acc ++ [(Tree.tok a1).nameStr]) else (t, acc)
| t, acc => (t, acc)

/-- The argument walk of getCommutingTerms (lines 5839 to 5858): per
argument, strip semicolon groups, recurse into nested occurrences of the
operation (and into differences when collecting a sum), set aside ?
wildcards and end terms for the rest list, and collect every other argument
as a term.  The recursive flattening is passed in as gct. -/
def gctArgs
    (gct : Tree → List String → Except Err (List Tree × List (List String)))
    (op : String) :
    List Tree → List String →
    List Tree → List (List String) → List Tree → List (List String) →
    Except Err (List Tree × List (List String) × List Tree × List (List String))
| [], _, ts, tns, rs, rns => .ok (ts, tns, rs, rns)
| arg0 :: rest, names, ts, tns, rs, rns => do
    let (arg, argnames) := stripSemi arg0 names
    if isOp (Tree.tok arg) op || (op == "+" && isOp (Tree.tok arg) "-") then
      let (st, sn) ← gct arg argnames
      gctArgs gct op rest names (ts ++ st) (tns ++ sn) rs rns
    else if isName (Tree.tok arg) "?" || isEndTerm arg then
      gctArgs gct op rest names ts tns (rs ++ [arg]) (rns ++ [argnames])
    else
      gctArgs gct op rest names (ts ++ [arg]) (tns ++ [argnames]) rs rns

/-- getCommutingTerms (lines 5821 to 5865): flatten a tree of nested
applications of one operation into the list of its commuting terms, paired
with the group names collected for each term; wildcard and end terms come
last.  A tree that is not an application of the operation is a single term
(the source then returns the names list itself for termnames; the call
sites only reach that case with an empty names list, for which the
one-entry list here behaves identically).  The fuel bounds the recursion;
each recursive call happens only on an argument that is again an
application of the operation. -/
def getCommutingTerms : ℕ → Tree → String → List String →
    Except Err (List Tree × List (List String))
| 0, _, _, _ => .error .outOfFuel
| fuel + 1, tree0, op, names =>
  let tree := plusRewrite op tree0
  match tree with
  | .leaf _ => .ok ([tree], [names])
  | .node tk args =>
    if tk.nameStr != op then .ok ([tree], [names])
    else do
      let (ts, tns, rs, rns) ←
        gctArgs (fun t n => getCommutingTerms fuel t op n) op args names [] [] [] []
      if rs.isEmpty then .ok (ts, tns) else .ok (ts ++ rs, tns ++ rns)

/-- Upsert into the namedTerms accumulator of the commuting branch
(lines 6030 to 6046): append the subtree to the list held for the name. -/
def namedTermsAdd (nt : List (String × List Tree)) (name : String) (v : Tree) :
    List (String × List Tree) :=
  match nt with
  | [] => [(name, [v])]
  | (k, vs) :: rest =>
    if k == name then (k, vs ++ [v]) :: rest
    else (k, vs) :: namedTermsAdd rest name v

/-- The capture assembly of the commuting branch (lines 6055 to 6063): the
terms collected for one name are folded into a left-nested application of
the commuting operation. -/
def buildOpChain (op : String) : List Tree → Tree
| [] => .leaf (Tok.name "" [] false)
| t :: rest =>
  rest.foldl (fun sub x => Tree.node (Tok.op op false false) [sub, x]) t

/-- Fold the captures of a submatch into the accumulated dictionary, in the
order of the submatch (the for-in copy at lines 6081 to 6083). -/
def capMerge (d : Captures) (m : Captures) : Captures :=
  m.foldl (fun d2 p => jsSet d2 p.1 p.2) d

/-- The inner loop of the commuting branch (lines 6019 to 6046): try the
rule terms in order against one expression term; a rule term is consumed by
the first success unless it is already matched and not an m_all term (the
match is still computed for skipped terms, so an error there propagates).
On success, return the updated flags, the captures and the group names of
the consumed rule term. -/
def commuteTryRules (mt : Tree → Except Err (Option Captures)) :
    List (Tree × List String × Bool) →
    Except Err (Option (List (Tree × List String × Bool) × Captures × List String))
| [] => .ok none
| (rt, nms, flag) :: rest => do
    let m ← mt rt
    match m, !flag || (Tree.tok rt).nameStr == "m_all" with
    | some mm, true => .ok (some ((rt, nms, true) :: rest, mm, nms))
    | _, _ =>
      match ← commuteTryRules mt rest with
      | some (rest2, mm2, nms2) => .ok (some ((rt, nms, flag) :: rest2, mm2, nms2))
      | none => .ok none

/-- The outer loop of the commuting branch (lines 6017 to 6049): every
expression term must be claimed by some rule term; the captures of each
claim and the expression terms claimed by named rule terms accumulate in
namedTerms. -/
def commuteOuter (mtd : Tree → Tree → Except Err (Option Captures)) :
    List Tree → List (Tree × List String × Bool) → List (String × List Tree) →
    Except Err (Option (List (Tree × List String × Bool) × List (String × List Tree)))
| [], rules, nt => .ok (some (rules, nt))
| e :: es, rules, nt => do
    match ← commuteTryRules (fun rt => mtd rt e) rules with
    | none => .ok none
    | some (rules2, mm, nms) =>
      let nt2 := mm.foldl (fun acc p => namedTermsAdd acc p.1 p.2) nt
      let nt3 := nms.foldl (fun acc name => namedTermsAdd acc name e) nt2
      commuteOuter mtd es rules2 nt3

/-- The positional loop of the non-commuting op and function branch
(lines 6075 to 6086): match the rule arguments in order against the
expression arguments at the same positions, merging captures.  A missing
expression argument is passed on as the absent tree, which the matcher
treats as a non-match. -/
def posMatch (mt : Tree → Option Tree → Except Err (Option Captures)) :
    List Tree → List Tree → Captures → Except Err (Option Captures)
| [], _, d => .ok (some d)
| r :: rs, es, d => do
    match ← mt r es.head? with
    | none => .ok none
    | some m => posMatch mt rs (es.drop 1) (capMerge d m)

/-- The m_any loop (lines 6012 to 6019): first matching alternative wins;
alternatives after the first success are not tried. -/
def matchAnyLoop (mt : Tree → Except Err (Option Captures)) :
    List Tree → Except Err (Option Captures)
| [] => .ok none
| a :: rest => do
    match ← mt a with
    | some m => .ok (some m)
    | none => matchAnyLoop mt rest

/-- The m_and loop (lines 6037 to 6049): every alternative must match; the
captures merge in order. -/
def matchAndLoop (mt : Tree → Except Err (Option Captures)) :
    List Tree → Captures → Except Err (Option Captures)
| [], d => .ok (some d)
| a :: rest, d => do
    match ← mt a with
    | some m => matchAndLoop mt rest (capMerge d m)
    | none => .ok none

/-- The m_uses check (lines 6051 to 6060): every argument name of the
pattern must occur among the variables of the expression. -/
def musesCheck (vars : List String) : List Tree → Bool
| [] => true
| a :: rest => vars.contains (Tree.tok a).nameStr && musesCheck vars rest

/-- The wanted type of an m_type pattern (line 5964): the name of a name
token or the value of a string token.  A value of any other type never
equals a type tag, so those cases map to the empty string, which no type
tag equals either. -/
def nameOrValue : Tok → String
| .name n _ _ => n
| .func n _ => n
| .op n _ _ => n
| .str v _ _ => v
| _ => ""

/-- matchTree (lines 5877 to 6097).  The fv collaborator stands for
jme.findvars (line 2264), which the m_uses form consults; its string branch
reaches through the parser and the TeX splitter, out of scope here.  The
absent expression tree models the undefined argument of the source
(line 5884).  The fuel bounds the recursion, which the m_pm rewrite keeps
from being structural.  Ranges compare their value arrays by reference in
the source (line 6000), so two distinct range tokens never match. -/
def matchTree (fv : Tree → List String) : ℕ → Tree → Option Tree → Bool →
    Except Err (Option Captures)
| 0, _, _, _ => .error .outOfFuel
| fuel + 1, ruleTree, exprTree?, doCommute =>
  match exprTree? with
  | none => .ok none
  | some exprTree =>
    let ruleTok := ruleTree.tok
    let exprTok := exprTree.tok
    if isOp ruleTok ";" then
      match ruleTree.argsD with
      | r0 :: r1 :: _ =>
        if (Tree.tok r1).type == "name" then do
          match ← matchTree fv fuel r0 (some exprTree) doCommute with
          | some m => .ok (some (jsSet m (Tree.tok r1).nameStr exprTree))
          | none => .ok none
        else .error .groupNameNotAName
      | _ => .error (.jsError "tok of undefined")
    else if ruleTok.type == "name"
        && (ruleTok.nameStr == "?" || ruleTok.nameStr == "??") then
      .ok (some [])
    else if ruleTok.type == "name" && ruleTok.nameStr == "m_number" then
      .ok (if exprTok.type == "number" then some [] else none)
    else if ruleTok.type == "function" && ruleTok.nameStr == "m_any" then
      matchAnyLoop (fun a => matchTree fv fuel a (some exprTree) doCommute)
        ruleTree.argsD
    else if ruleTok.type == "function" && ruleTok.nameStr == "m_all" then
      match ruleTree.argsD with
      | a0 :: _ => matchTree fv fuel a0 (some exprTree) doCommute
      | [] => .error (.jsError "tok of undefined")
    else if ruleTok.type == "function" && ruleTok.nameStr == "m_pm" then
      match ruleTree.argsD with
      | a0 :: _ =>
        if isOp exprTok "-u" then
          matchTree fv fuel (.node (Tok.op "-u" false false) [a0])
            (some exprTree) doCommute
        else
          matchTree fv fuel a0 (some exprTree) doCommute
      | [] => .error (.jsError "tok of undefined")
    else if ruleTok.type == "function" && ruleTok.nameStr == "m_not" then
      match ruleTree.argsD with
      | a0 :: _ => do
        match ← matchTree fv fuel a0 (some exprTree) doCommute with
        | some _ => .ok none
        | none => .ok (some [])
      | [] => .error (.jsError "tok of undefined")
    else if ruleTok.type == "function" && ruleTok.nameStr == "m_and" then
      matchAndLoop (fun a => matchTree fv fuel a (some exprTree) doCommute)
        ruleTree.argsD []
    else if ruleTok.type == "function" && ruleTok.nameStr == "m_uses" then
      .ok (if musesCheck (fv exprTree) ruleTree.argsD then some [] else none)
    else if ruleTok.type == "function" && ruleTok.nameStr == "m_commute" then
      match ruleTree.argsD with
      | a0 :: _ => matchTree fv fuel a0 (some exprTree) true
      | [] => .error (.jsError "tok of undefined")
    else if ruleTok.type == "function" && ruleTok.nameStr == "m_type" then
      match ruleTree.argsD with
      | a0 :: _ =>
        .ok (if exprTok.type == nameOrValue (Tree.tok a0) then some [] else none)
      | [] => .error (.jsError "tok of undefined")
    else if isName ruleTok "m_nothing" then .ok none
    else if ruleTok.type != "op" && ruleTok.type != exprTok.type then .ok none
    else if ruleTok.type == "number" then
      match ruleTok, exprTok with
      | .num a, .num b => .ok (if mathEq a b then some [] else none)
      | _, _ => .ok none
    else if ruleTok.type == "string" then
      match ruleTok, exprTok with
      | .str a _ _, .str b _ _ => .ok (if a == b then some [] else none)
      | _, _ => .ok none
    else if ruleTok.type == "boolean" then
      match ruleTok, exprTok with
      | .bool a, .bool b => .ok (if a == b then some [] else none)
      | _, _ => .ok none
    else if ruleTok.type == "range" then .ok none
    else if ruleTok.type == "function" || ruleTok.type == "op" then
      if doCommute && commutative.contains ruleTok.nameStr then do
        let (rts, rtns) ← getCommutingTerms fuel ruleTree ruleTok.nameStr []
        let (ets, _) ← getCommutingTerms fuel exprTree ruleTok.nameStr []
        let rules0 := (List.zip rts rtns).map (fun p => (p.1, p.2, false))
        match ← commuteOuter (fun rt e => matchTree fv fuel rt (some e) doCommute)
            ets rules0 [] with
        | none => .ok none
        | some (rules2, nt) =>
          if rules2.all (fun r => isEndTerm r.1 || r.2.2) then
            .ok (some (nt.map (fun p => (p.1, buildOpChain ruleTok.nameStr p.2))))
          else .ok none
      else
        if ruleTok.type != exprTok.type || ruleTok.nameStr != exprTok.nameStr then
          .ok none
        else
          posMatch (fun r e => matchTree fv fuel r e doCommute)
            ruleTree.argsD exprTree.argsD []
    else if ruleTok.type == "name" then
      .ok (if strLower ruleTok.nameStr == strLower exprTok.nameStr then some []
        else none)
    else
      .ok (some [])

/-- C4 (amended).  The commutative table holds exactly multiplication,
addition, boolean conjunction and equality - boolean disjunction is not in
it.  For an operator outside the table (other than the semicolon grouping
form), matching an operator node in commuting mode takes the ordinary
positional branch: an operator of a different name does not match, and an
operator of the same name matches by matching the pattern arguments against
the expression arguments position by position.  The positional branch does
not compare arities: a pattern argument beyond the expression arguments
fails to match, while surplus expression arguments are ignored. -/
theorem matchTree_commutative_spec (fv : Tree → List String) (fuel : ℕ)
    (n : String) (pf pr : Bool) (rargs : List Tree)
    (hsemi : n ≠ ";") (hn : commutative.contains n = false) :
    (∀ s, commutative.contains s = true ↔
      (s = "*" ∨ s = "+" ∨ s = "and" ∨ s = "=")) ∧
    (∀ m pf2 pr2 eargs, n ≠ m →
      matchTree fv (fuel + 1) (.node (Tok.op n pf pr) rargs)
        (some (.node (Tok.op m pf2 pr2) eargs)) true = .ok none) ∧
    (∀ pf2 pr2 eargs,
      matchTree fv (fuel + 1) (.node (Tok.op n pf pr) rargs)
        (some (.node (Tok.op n pf2 pr2) eargs)) true =
      posMatch (fun r e => matchTree fv fuel r e true) rargs eargs []) := by
  have hb : (n == ";") = false := beq_eq_false_iff_ne.mpr hsemi
  refine ⟨?_, ?_, ?_⟩
  · intro s
    constructor
    · intro h
      have hm : s ∈ commutative := List.elem_iff.mp h
      fin_cases hm <;> simp
    · rintro (rfl | rfl | rfl | rfl) <;> decide
  · intro m pf2 pr2 eargs hnm
    have hnm2 : (n == m) = false := beq_eq_false_iff_ne.mpr hnm
    simp only [matchTree, isOp, isName, Tok.type, Tok.nameStr, Tree.tok, hb, hn,
      hnm2]
    simp
    exact fun h => absurd h hnm
  · intro pf2 pr2 eargs
    simp only [matchTree, isOp, isName, Tok.type, Tok.nameStr, Tree.tok,
      Tree.argsD, hb, hn]
    simp

/-- A findvars collaborator for concrete runs that never meet m_uses. -/
def fvNone : Tree → List String := fun _ => []

/-- C4 counterexample: boolean disjunction is not in the commutative table,
so in commuting mode the pattern or(true, false) does not match the
expression or(false, true) - matching is positional - although the same
shapes with boolean conjunction, which is in the table, do match after
commuting. -/
theorem matchTree_or_positional_counterexample :
    commutative.contains "or" = false ∧
    matchTree fvNone 3 (.node (Tok.op "or" false false)
        [.leaf (.bool true), .leaf (.bool false)])
      (some (.node (Tok.op "or" false false)
        [.leaf (.bool false), .leaf (.bool true)])) true = .ok none ∧
    matchTree fvNone 3 (.node (Tok.op "and" false false)
        [.leaf (.bool true), .leaf (.bool false)])
      (some (.node (Tok.op "and" false false)
        [.leaf (.bool false), .leaf (.bool true)])) true = .ok (some []) :=
  ⟨rfl, rfl, rfl⟩

/-- C4 witness: the positional-dispatch theorem applied to the operator or,
a one-argument pattern and a matching one-argument expression. -/
theorem matchTree_commutative_spec_witness :
    matchTree fvNone 2 (.node (Tok.op "or" false false) [.leaf (.bool true)])
      (some (.node (Tok.op "or" false false) [.leaf (.bool true)])) true =
      .ok (some []) := by
  have h := (matchTree_commutative_spec fvNone 1 "or" false false
    [.leaf (.bool true)] (by decide) rfl).2.2 false false [.leaf (.bool true)]
  rw [h]
  rfl

theorem exceptBind_ok {α β : Type} (a : α) (f : α → Except Err β) :
    (Except.ok a >>= f) = f a := rfl

theorem exceptBind_err {α β : Type} (e : Err) (f : α → Except Err β) :
    ((Except.error e : Except Err α) >>= f) = Except.error e := rfl

/-- The mathematical value a JNum stands for: a point of the complex plane
or a signed infinity.  math.eq compares these values. -/
def jnumRepr : JNum → (ℚ × ℚ) ⊕ Bool
| .real a => .inl (a, 0)
| .cpx a b => .inl (a, b)
| .inf p => .inr p

theorem mathEq_iff_repr (x y : JNum) :
    mathEq x y = true ↔ jnumRepr x = jnumRepr y := by
  cases x <;> cases y <;> simp [mathEq, jnumRepr]
  exact fun _ => ⟨fun h => h.symm, fun h => h.symm⟩

theorem mathEq_symm2 {x y : JNum} (h : mathEq x y = true) : mathEq y x = true :=
  (mathEq_iff_repr y x).mpr ((mathEq_iff_repr x y).mp h).symm

theorem mathEq_trans2 {x y z : JNum} (h1 : mathEq x y = true)
    (h2 : mathEq y z = true) : mathEq x z = true :=
  (mathEq_iff_repr x z).mpr
    (((mathEq_iff_repr x y).mp h1).trans ((mathEq_iff_repr y z).mp h2))

set_option maxHeartbeats 24000000 in
/-- Evaluation of the commuting branch on a two-literal-number pattern
against a two-literal-number subject: the greedy claim loop gives the first
subject term to the first pattern term whose value equals it, and the match
succeeds exactly when that assignment extends to the second subject term. -/
theorem matchTree_twoterm_eval (fv : Tree → List String) (fuel : ℕ)
    (opn : String) (rf1 rf2 sf1 sf2 : Bool) (p1 p2 x y : JNum)
    (hsemi : (opn == ";") = false) (hminus : (opn == "-") = false)
    (hcomm : commutative.contains opn = true) :
    matchTree fv (fuel + 1 + 1)
      (.node (Tok.op opn rf1 rf2) [.leaf (.num p1), .leaf (.num p2)])
      (some (.node (Tok.op opn sf1 sf2) [.leaf (.num x), .leaf (.num y)])) true =
    (if mathEq p1 x then (if mathEq p2 y then .ok (some []) else .ok none)
     else if mathEq p2 x then (if mathEq p1 y then .ok (some []) else .ok none)
     else .ok none) := by
  cases h1 : mathEq p1 x <;> cases h2 : mathEq p2 x <;>
  cases h3 : mathEq p1 y <;> cases h4 : mathEq p2 y <;>
  [trans (Except.ok (none : Option Captures));
   trans (Except.ok (none : Option Captures));
   trans (Except.ok (none : Option Captures));
   trans (Except.ok (none : Option Captures));
   trans (Except.ok (none : Option Captures));
   trans (Except.ok (none : Option Captures));
   trans (Except.ok (some ([] : Captures)));
   trans (Except.ok (some ([] : Captures)));
   trans (Except.ok (none : Option Captures));
   trans (Except.ok (some ([] : Captures)));
   trans (Except.ok (none : Option Captures));
   trans (Except.ok (some ([] : Captures)));
   trans (Except.ok (none : Option Captures));
   trans (Except.ok (some ([] : Captures)));
   trans (Except.ok (none : Option Captures));
   trans (Except.ok (some ([] : Captures)))] <;>
  first
  | (simp [h1, h2, h3, h4]; done)
  | (simp [matchTree, getCommutingTerms, gctArgs, plusRewrite, stripSemi,
      commuteOuter, commuteTryRules, namedTermsAdd, buildOpChain, isEndTerm,
      isEndTermAny, capMerge, posMatch, isOp, isName, Tok.type, Tok.nameStr,
      Tree.tok, Tree.argsD, jsSet, nameOrValue, exceptBind_ok, exceptBind_err,
      hsemi, hminus, hcomm, h1, h2, h3, h4];
     try exact List.elem_iff.mp hcomm)

/-- C5 (amended).  For every operator of the commutative table and every
pattern consisting of two literal number terms, commuting-mode matching is
symmetric in the two terms of a two-literal-number subject: the match
against a OP b succeeds exactly as against b OP a, with the same (empty)
captures.  The general claim fails for patterns whose terms overlap
unevenly - the greedy claim loop is order sensitive - see the
counterexample. -/
theorem matchTree_commute_twoterm_symm (fv : Tree → List String) (fuel : ℕ)
    (opn : String) (rf1 rf2 sf1 sf2 : Bool) (p1 p2 a b : JNum)
    (hcomm : commutative.contains opn = true) :
    matchTree fv (fuel + 1 + 1)
      (.node (Tok.op opn rf1 rf2) [.leaf (.num p1), .leaf (.num p2)])
      (some (.node (Tok.op opn sf1 sf2) [.leaf (.num a), .leaf (.num b)])) true =
    matchTree fv (fuel + 1 + 1)
      (.node (Tok.op opn rf1 rf2) [.leaf (.num p1), .leaf (.num p2)])
      (some (.node (Tok.op opn sf1 sf2) [.leaf (.num b), .leaf (.num a)])) true := by
  have hm : opn ∈ commutative := List.elem_iff.mp hcomm
  have hsemi : (opn == ";") = false := by
    cases hv : opn == ";"
    · rfl
    · exfalso
      have h2 := eq_of_beq hv
      subst h2
      exact absurd hm (by decide)
  have hminus : (opn == "-") = false := by
    cases hv : opn == "-"
    · rfl
    · exfalso
      have h2 := eq_of_beq hv
      subst h2
      exact absurd hm (by decide)
  rw [matchTree_twoterm_eval fv fuel opn rf1 rf2 sf1 sf2 p1 p2 a b hsemi hminus
      hcomm,
    matchTree_twoterm_eval fv fuel opn rf1 rf2 sf1 sf2 p1 p2 b a hsemi hminus
      hcomm]
  cases h1 : mathEq p1 a <;> cases h2 : mathEq p2 a <;>
  cases h3 : mathEq p1 b <;> cases h4 : mathEq p2 b <;>
  first
  | (simp [h1, h2, h3, h4]; done)
  | (exfalso
     have hd : mathEq p2 b = true :=
       mathEq_trans2 (mathEq_trans2 h2 (mathEq_symm2 h1)) h3
     simp [hd] at h4)
  | (exfalso
     have hd : mathEq p2 a = true :=
       mathEq_trans2 (mathEq_trans2 h4 (mathEq_symm2 h3)) h1
     simp [hd] at h2)

/-- The pattern and(m_type(boolean), true): its first term matches any
boolean, its second only the literal true; it uses no positional
sub-form. -/
def c5Pattern : Tree :=
  .node (Tok.op "and" false false)
    [.node (Tok.func "m_type" []) [.leaf (Tok.name "boolean" [] false)],
     .leaf (Tok.bool true)]

/-- C5 counterexample: commuting-mode matching is not symmetric for the
commutative operator and.  The greedy claim loop gives the first subject
term to the first pattern term that matches it: against false and true the
wildcard-like m_type term takes false and the literal true takes true, a
match; against true and false the m_type term greedily takes true, leaving
the literal true facing false, a non-match. -/
theorem matchTree_commute_asym_counterexample :
    commutative.contains "and" = true ∧
    matchTree fvNone 9 c5Pattern
      (some (.node (Tok.op "and" false false)
        [.leaf (.bool false), .leaf (.bool true)])) true = .ok (some []) ∧
    matchTree fvNone 9 c5Pattern
      (some (.node (Tok.op "and" false false)
        [.leaf (.bool true), .leaf (.bool false)])) true = .ok none :=
  ⟨rfl, rfl, rfl⟩

/-- C5 witness: the symmetry theorem applied to the sum operator, the
pattern 1 + 2 and the subject 1 + 2 against its commuted form 2 + 1, where
the common match value is computed. -/
theorem matchTree_commute_twoterm_symm_witness :
    matchTree fvNone 2
      (.node (Tok.op "+" false false)
        [.leaf (.num (.real 1)), .leaf (.num (.real 2))])
      (some (.node (Tok.op "+" false false)
        [.leaf (.num (.real 1)), .leaf (.num (.real 2))])) true =
    matchTree fvNone 2
      (.node (Tok.op "+" false false)
        [.leaf (.num (.real 1)), .leaf (.num (.real 2))])
      (some (.node (Tok.op "+" false false)
        [.leaf (.num (.real 2)), .leaf (.num (.real 1))])) true ∧
    matchTree fvNone 2
      (.node (Tok.op "+" false false)
        [.leaf (.num (.real 1)), .leaf (.num (.real 2))])
      (some (.node (Tok.op "+" false false)
        [.leaf (.num (.real 2)), .leaf (.num (.real 1))])) true = .ok (some []) :=
  ⟨matchTree_commute_twoterm_symm fvNone 0 "+" false false false false
      (.real 1) (.real 2) (.real 1) (.real 2) rfl,
    rfl⟩

/-! ## Rules and condition checking (claim C6) -/

/-- The value of one hexadecimal digit. -/
def hexVal (c : Char) : Option ℕ :=
  if c.isDigit then some (c.toNat - 48)
  else if 97 ≤ c.toNat && c.toNat ≤ 102 then some (c.toNat - 87)
  else if 65 ≤ c.toNat && c.toNat ≤ 70 then some (c.toNat - 55)
  else none

/-- The value of a digit run in a given radix; none when a character is not
a digit of that radix. -/
def radixValAux (radix : ℕ) (val : Char → Option ℕ) :
    List Char → ℕ → Option ℕ
| [], acc => some acc
| c :: rest, acc =>
  match val c with
  | some d => radixValAux radix val rest (acc * radix + d)
  | none => none

/-- The digits of an exponent part: a digit run making up the whole rest. -/
def expDigits (cs : List Char) : Option ℕ :=
  let (ds, r) := takeDigits cs
  if ds.isEmpty || !r.isEmpty then none else some (digitsVal ds)

/-- A decimal string numeric literal of the host language: an integer part
or a fraction part or both, with an optional exponent. -/
def jsParseDec (cs : List Char) : Option ℚ :=
  let (ds, r1) := takeDigits cs
  let (fs, r2) :=
    match r1 with
    | '.' :: rr => takeDigits rr
    | _ => (([] : List Char), r1)
  if ds.isEmpty && fs.isEmpty then none
  else
    match r2 with
    | [] => some (ratOfParts ds fs)
    | e :: r3 =>
      if e == Char.ofNat 101 || e == Char.ofNat 69 then
        match r3 with
        | '+' :: r4 => (expDigits r4).map (fun k => ratOfParts ds fs * 10 ^ k)
        | '-' :: r4 => (expDigits r4).map (fun k => ratOfParts ds fs / 10 ^ k)
        | r4 => (expDigits r4).map (fun k => ratOfParts ds fs * 10 ^ k)
      else none

/-- A decimal literal or the word Infinity.  Infinity is never zero, so for
the equals-false test it folds into the not-a-number outcome. -/
def jsParseDecOrInf (cs : List Char) : Option ℚ :=
  if cs = "Infinity".data then none else jsParseDec cs

/-- A string numeric literal of the host language: an optionally signed
decimal literal or Infinity, or an unsigned hexadecimal, octal or binary
integer literal. -/
def jsNumLit : List Char → Option ℚ
| '+' :: rest => jsParseDecOrInf rest
| '-' :: rest => (jsParseDecOrInf rest).map Neg.neg
| '0' :: x :: rest =>
  if x == Char.ofNat 120 || x == Char.ofNat 88 then
    match rest with
    | [] => none
    | _ => (radixValAux 16 hexVal rest 0).map (fun n => (n : ℚ))
  else if x == Char.ofNat 111 || x == Char.ofNat 79 then
    match rest with
    | [] => none
    | _ => (radixValAux 8
        (fun c => if c.isDigit && c.toNat ≤ 55 then some (c.toNat - 48) else none)
        rest 0).map (fun n => (n : ℚ))
  else if x == Char.ofNat 98 || x == Char.ofNat 66 then
    match rest with
    | [] => none
    | _ => (radixValAux 2
        (fun c => if c == '0' then some 0 else if c == '1' then some 1 else none)
        rest 0).map (fun n => (n : ℚ))
  else jsParseDec ('0' :: x :: rest)
| cs => jsParseDec cs

/-- Does a string compare loosely equal to false in the host language?  The
string converts to a number; the comparison holds exactly when that number
is zero.  The whitespace class trimmed here is the one the tokenizer strips,
close to the host's. -/
def jsStrEqFalse (s : String) : Bool :=
  match stripWS s.data with
  | [] => true
  | cs =>
    match jsNumLit cs with
    | some q => q == 0
    | none => false

/-- The host-language loose comparison result.value == false performed on a
condition value by matchConditions (line 5784).  Booleans compare by value;
a real number equals false exactly when it is zero; complex values and
infinities are objects or nonzero numbers, never loosely false; a string
converts to a number; a realized list converts through its string form, so
only the empty list is loosely false (a nonempty list of token objects
never converts to zero); dictionaries are objects; tokens without a value
property compare undefined against false, which does not hold. -/
def jsEqFalse : Tok → Bool
| .bool b => !b
| .num (.real q) => q == 0
| .num (.cpx _ _) => false
| .num (.inf _) => false
| .str v _ _ => jsStrEqFalse v
| .list _ (some vals) => vals.isEmpty
| .list _ none => false
| .dict _ => false
| .range _ _ _ => false
| .name _ _ _ => false
| .func _ _ => false
| .op _ _ _ => false
| .keypair _ => false
| .punc _ => false

/-- A simplification rule (Numbas.jme.rules.Rule, line 5718): the compiled
pattern, the compiled conditions and the compiled result. -/
structure Rule where
  tree : Tree
  conditions : List Tree
  result : Tree

/-- The scope a match dictionary becomes for substitution into conditions
(line 5781): a parentless scope constructed with the captures as extra
variables, so each name is case-folded on write and holds the captured
subtree. -/
def matchScope (m : Captures) : Scope :=
  Scope.mk (m.foldl (fun acc p => jsSet acc (strLower p.1) (VarVal.tree p.2)) [])
    [] [] none

/-- Rule.matchConditions (lines 5776 to 5794): for each condition, copy it
and substitute the captured subtrees into it - outside the try block, so a
substitution error (an unbound name, since allowUnbound is not passed)
propagates - then evaluate it in the given scope inside the try block: an
evaluation error makes the whole check false, as does a value loosely equal
to false.  The fuel-exhaustion marker of the evaluation passes through so
that exhaustion stays distinguishable from errors of the source. -/
def matchConditions (ctx : Ctx) (fuel : ℕ) :
    List Tree → Captures → Scope → Except Err Bool
| [], _, _ => .ok true
| c :: rest, m, scope => do
    let c2 ← substituteTree (matchScope m) false c
    match evalTree ctx fuel scope c2 with
    | .error e => if e = .outOfFuel then .error .outOfFuel else .ok false
    | .ok result =>
      if jsEqFalse result then .ok false
      else matchConditions ctx fuel rest m scope

/-- Rule.prototype.match (lines 5747 to 5760; the name match is reserved
here): match the pattern without commuting, then check the conditions; a
false condition check turns the match into a non-match. -/
def Rule.matchRule (ctx : Ctx) (fv : Tree → List String) (fuel : ℕ) (r : Rule)
    (exprTree : Tree) (scope : Scope) : Except Err (Option Captures) := do
  match ← matchTree fv fuel r.tree (some exprTree) false with
  | none => .ok none
  | some m =>
    match ← matchConditions ctx fuel r.conditions m scope with
    | true => .ok (some m)
    | false => .ok none

theorem matchConditions_append (ctx : Ctx) (fuel : ℕ) (m : Captures)
    (scope : Scope) :
    ∀ (pre rest : List Tree),
      matchConditions ctx fuel (pre ++ rest) m scope =
        (matchConditions ctx fuel pre m scope).bind
          (fun ok => if ok then matchConditions ctx fuel rest m scope
            else .ok false) := by
  intro pre
  induction pre with
  | nil => intro rest; rfl
  | cons c cs ih =>
      intro rest
      rw [List.cons_append]
      show matchConditions ctx fuel (c :: (cs ++ rest)) m scope = _
      simp only [matchConditions]
      cases hs : substituteTree (matchScope m) false c with
      | error e => rfl
      | ok c2 =>
          simp only [exceptBind_ok]
          cases he : evalTree ctx fuel scope c2 with
          | error e =>
              by_cases hf : e = Err.outOfFuel
              · subst hf
                rfl
              · show (if e = Err.outOfFuel
                    then (Except.error Err.outOfFuel : Except Err Bool)
                    else .ok false) =
                  Except.bind (if e = Err.outOfFuel
                    then (Except.error Err.outOfFuel : Except Err Bool)
                    else .ok false) _
                rw [if_neg hf]
                rfl
          | ok result =>
              show (if jsEqFalse result = true
                  then (Except.ok false : Except Err Bool)
                  else matchConditions ctx fuel (cs ++ rest) m scope) =
                Except.bind (if jsEqFalse result = true
                  then (Except.ok false : Except Err Bool)
                  else matchConditions ctx fuel cs m scope) _
              by_cases hv : jsEqFalse result = true
              · have hL : (if jsEqFalse result = true
                    then (Except.ok false : Except Err Bool)
                    else matchConditions ctx fuel (cs ++ rest) m scope) =
                    .ok false := if_pos hv
                have hR : (if jsEqFalse result = true
                    then (Except.ok false : Except Err Bool)
                    else matchConditions ctx fuel cs m scope) =
                    .ok false := if_pos hv
                rw [hL, hR]
                rfl
              · have hL : (if jsEqFalse result = true
                    then (Except.ok false : Except Err Bool)
                    else matchConditions ctx fuel (cs ++ rest) m scope) =
                    matchConditions ctx fuel (cs ++ rest) m scope := if_neg hv
                have hR : (if jsEqFalse result = true
                    then (Except.ok false : Except Err Bool)
                    else matchConditions ctx fuel cs m scope) =
                    matchConditions ctx fuel cs m scope := if_neg hv
                rw [hL, hR]
                exact ih rest

/-- C6 (amended).  A condition whose substituted form evaluates with an
error (other than the exhaustion marker of this embedding) makes the
condition check false, and a rule whose pattern matched but whose condition
check is false reports a non-match without an error; a rule with a matching
pattern matches exactly when its condition check passes - every condition
substitutes without error and evaluates without error to a value not
loosely equal to false.  What does raise an error: substituting the
captures into a condition that mentions a name the match does not bind
propagates the undefined-variable error out of Rule.match, because the
substitution happens outside the try block - see the counterexample. -/
theorem rule_match_condition_spec (ctx : Ctx) (fv : Tree → List String)
    (fuel : ℕ) (r : Rule) (expr : Tree) (scope : Scope) :
    (∀ pre c rest m e c2,
      r.conditions = pre ++ c :: rest →
      matchConditions ctx fuel pre m scope = .ok true →
      substituteTree (matchScope m) false c = .ok c2 →
      evalTree ctx fuel scope c2 = .error e → e ≠ .outOfFuel →
      matchConditions ctx fuel r.conditions m scope = .ok false) ∧
    (∀ m, matchTree fv fuel r.tree (some expr) false = .ok (some m) →
      (Rule.matchRule ctx fv fuel r expr scope = .ok (some m) ↔
        matchConditions ctx fuel r.conditions m scope = .ok true)) ∧
    (∀ m, matchTree fv fuel r.tree (some expr) false = .ok (some m) →
      matchConditions ctx fuel r.conditions m scope = .ok false →
      Rule.matchRule ctx fv fuel r expr scope = .ok none) := by
  have hreduce : ∀ m, matchTree fv fuel r.tree (some expr) false = .ok (some m) →
      Rule.matchRule ctx fv fuel r expr scope =
        ((matchConditions ctx fuel r.conditions m scope) >>= fun ok =>
          cond ok (.ok (some m)) (.ok none)) := by
    intro m hmatch
    unfold Rule.matchRule
    rw [hmatch]
    rfl
  refine ⟨?_, ?_, ?_⟩
  · intro pre c rest m e c2 hsplit hpre hsub heval hne
    rw [hsplit, matchConditions_append, hpre]
    show matchConditions ctx fuel (c :: rest) m scope = _
    simp only [matchConditions, hsub, exceptBind_ok, heval]
    rw [if_neg hne]
  · intro m hmatch
    rw [hreduce m hmatch]
    constructor
    · intro h
      cases hc : matchConditions ctx fuel r.conditions m scope with
      | error e =>
          rw [hc] at h
          exact nomatch (show (Except.error e : Except Err (Option Captures))
            = Except.ok (some m) from h)
      | ok ok =>
          cases ok with
          | true => rfl
          | false =>
              rw [hc] at h
              have h2 : (Except.ok (none : Option Captures) : Except Err _)
                  = Except.ok (some m) := h
              cases h2
    · intro h
      rw [h]
      rfl
  · intro m hmatch hcond
    rw [hreduce m hmatch, hcond]
    rfl

/-- A rule whose single condition mentions a name no capture binds. -/
def c6RuleUnbound : Rule :=
  { tree := .leaf (Tok.name "?" [] false),
    conditions := [.leaf (Tok.name "z" [] false)],
    result := .leaf (Tok.bool true) }

/-- A rule whose single condition substitutes cleanly but fails to
evaluate: it calls a function no scope defines. -/
def c6RuleEvalErr : Rule :=
  { tree := .leaf (Tok.name "?" [] false),
    conditions := [.node (Tok.func "undef_fn" []) []],
    result := .leaf (Tok.bool true) }

/-- C6 counterexample: the two kinds of condition failure part ways.  A
condition that only fails to evaluate (an undefined function) is caught and
the rule reports a plain non-match; but a condition mentioning a name the
match does not bind makes the substitution throw before the try block, and
Rule.match propagates the undefined-variable error instead of reporting a
non-match - the claim that Rule.match raises no error itself is false. -/
theorem rule_match_substitution_error_counterexample :
    Rule.matchRule cvCtx fvNone 3 c6RuleEvalErr (.leaf (Tok.num (.real 1)))
      cvScope = .ok none ∧
    Rule.matchRule cvCtx fvNone 3 c6RuleUnbound (.leaf (Tok.num (.real 1)))
      cvScope = .error (.substituteTreeUndefinedVariable "z") :=
  ⟨rfl, rfl⟩

/-- A rule with a single literally true condition. -/
def c6RuleTrue : Rule :=
  { tree := .leaf (Tok.name "?" [] false),
    conditions := [.leaf (Tok.bool true)],
    result := .leaf (Tok.bool true) }

/-- C6 witness: the condition theorem applied to a rule with a true
condition matching a number leaf. -/
theorem rule_match_condition_spec_witness :
    Rule.matchRule cvCtx fvNone 2 c6RuleTrue (.leaf (Tok.num (.real 1)))
      cvScope = .ok (some []) :=
  ((rule_match_condition_spec cvCtx fvNone 2 c6RuleTrue
      (.leaf (Tok.num (.real 1))) cvScope).2.1 [] rfl).mpr rfl

/-! ## The simplification loop (claim C7)

jme.display.simplifyTree (lines 4338 to 4390).  A Ruleset is represented by
its rules array; its flags steer only the display layer. -/

/-- The rule scan of one pass (lines 4369 to 4386): the first rule whose
match succeeds is applied; a thrown match error propagates. -/
def findRuleMatch (ctx : Ctx) (fv : Tree → List String) (mfuel : ℕ)
    (scope : Scope) : List Rule → Tree → Except Err (Option (Rule × Captures))
| [], _ => .ok none
| r :: rest, t => do
    match ← Rule.matchRule ctx fv mfuel r t scope with
    | some m => .ok (some (r, m))
    | none => findRuleMatch ctx fv mfuel scope rest t

/-- Is this the meta-function eval, replaced by its evaluated argument at
the head of the loop (line 4355)? -/
def isEvalNode (t : Tree) : Bool :=
  (Tree.tok t).type == "function" && (Tree.tok t).nameStr == "eval"

/-- The while loop of simplifyTree (lines 4352 to 4388): replace an eval
node by its evaluated argument; otherwise simplify every child, then apply
the first matching rule by substituting the captures into its result, and
repeat until no rule applies.  Two separate bounds replace the unbounded
source recursion: mfuel is the recursion depth handed to the matcher and
the evaluator and is threaded unchanged, while the structural fuel is spent
on loop iterations and descent.  The depth and seen loop detector of
lines 4348 to 4384 fires only past depth 100 on a repeated printed form and
is subsumed here by fuel exhaustion. -/
def simplifyLoop (ctx : Ctx) (fv : Tree → List String) (rules : List Rule)
    (mfuel : ℕ) : ℕ → Scope → Tree → Except Err Tree
| 0, _, _ => .error .outOfFuel
| fuel + 1, scope, t =>
  if isEvalNode t then
    match t.argsD with
    | a0 :: _ =>
      match evalTree ctx mfuel scope a0 with
      | .error e => .error e
      | .ok v => simplifyLoop ctx fv rules mfuel fuel scope (.leaf v)
    | [] => .error (.jsError "tok of null")
  else do
    let t2 ←
      match t with
      | .leaf _ => pure t
      | .node tk args => do
          let args2 ← args.mapM (simplifyLoop ctx fv rules mfuel fuel scope)
          pure (Tree.node tk args2)
    match ← findRuleMatch ctx fv mfuel scope rules t2 with
    | none => .ok t2
    | some (r, m) =>
      match substituteTree (matchScope m) false r.result with
      | .error e => .error e
      | .ok t3 => simplifyLoop ctx fv rules mfuel fuel scope t3

/-- jme.display.simplifyTree (line 4338): the own variables of the scope
are wiped on entry (line 4343) so they are not substituted into results,
then the rewrite loop runs. -/
def simplifyTree (ctx : Ctx) (fv : Tree → List String) (rules : List Rule)
    (mfuel fuel : ℕ) (scope : Scope) (t : Tree) : Except Err Tree :=
  simplifyLoop ctx fv rules mfuel fuel (scope.withVariables []) t

mutual

/-- The height of a tree: leaves are at height zero. -/
def treeHeight : Tree → ℕ
| .leaf _ => 0
| .node _ args => heightList args + 1

/-- The greatest height among a list of trees. -/
def heightList : List Tree → ℕ
| [] => 0
| t :: rest => max (treeHeight t) (heightList rest)

end

mutual

/-- A tree in simplified form with respect to a rule list: no rule matches
the root, the root is not the eval meta-function, and every child is in
simplified form. -/
def SimplifiedForm (ctx : Ctx) (fv : Tree → List String) (rules : List Rule)
    (mfuel : ℕ) (scope : Scope) : Tree → Prop
| .leaf tok =>
  findRuleMatch ctx fv mfuel scope rules (.leaf tok) = .ok none ∧
  isEvalNode (.leaf tok) = false
| .node tk args =>
  findRuleMatch ctx fv mfuel scope rules (.node tk args) = .ok none ∧
  isEvalNode (.node tk args) = false ∧
  SimplifiedList ctx fv rules mfuel scope args

/-- Every tree of the list is in simplified form. -/
def SimplifiedList (ctx : Ctx) (fv : Tree → List String) (rules : List Rule)
    (mfuel : ℕ) (scope : Scope) : List Tree → Prop
| [] => True
| t :: rest =>
  SimplifiedForm ctx fv rules mfuel scope t ∧
  SimplifiedList ctx fv rules mfuel scope rest

end

theorem exceptPure_bind {α β : Type} (a : α) (f : α → Except Err β) :
    ((pure a : Except Err α) >>= f) = f a := rfl

/-- An effectful map that returns a list pairs each input with its output. -/
theorem mapM_ok_forall {α β : Type} (f : α → Except Err β) :
    ∀ (l : List α) (l2 : List β), l.mapM f = .ok l2 →
      List.Forall₂ (fun a b => f a = .ok b) l l2 := by
  intro l
  induction l with
  | nil =>
      intro l2 h
      rw [List.mapM_nil] at h
      cases h
      exact List.Forall₂.nil
  | cons x xs ih =>
      intro l2 h
      rw [List.mapM_cons] at h
      cases hx : f x with
      | error e =>
          rw [hx] at h
          exact nomatch (show (Except.error e : Except Err (List β))
            = Except.ok l2 from h)
      | ok b =>
          rw [hx] at h
          cases hxs : xs.mapM f with
          | error e2 =>
              rw [hxs] at h
              exact nomatch (show (Except.error e2 : Except Err (List β))
                = Except.ok l2 from h)
          | ok bs =>
              rw [hxs] at h
              have h2 : (Except.ok (b :: bs) : Except Err (List β))
                  = Except.ok l2 := h
              cases h2
              exact List.Forall₂.cons hx (ih bs hxs)

/-- An effectful map over fixed points of the function is the identity. -/
theorem mapM_self_ok (f : Tree → Except Err Tree) :
    ∀ l : List Tree, (∀ c ∈ l, f c = .ok c) → l.mapM f = .ok l := by
  intro l
  induction l with
  | nil => intro _; rfl
  | cons x xs ih =>
      intro h
      rw [List.mapM_cons, h x (List.mem_cons_self _ _),
        ih (fun c hc => h c (List.mem_cons_of_mem _ hc))]
      rfl

theorem treeHeight_mem {c : Tree} :
    ∀ {l : List Tree}, c ∈ l → treeHeight c ≤ heightList l := by
  intro l
  induction l with
  | nil => intro h; cases h
  | cons x xs ih =>
      intro h
      cases h with
      | head =>
          show treeHeight c ≤ heightList (c :: xs)
          simp only [heightList]
          exact le_max_left _ _
      | tail _ h2 =>
          show treeHeight c ≤ heightList (x :: xs)
          simp only [heightList]
          exact le_trans (ih h2) (le_max_right _ _)

/-- The fixed-point property of the rewrite loop: a successful run returns
a tree in simplified form, and running the loop again on that tree with any
structural fuel beyond its height returns it unchanged. -/
theorem simplifyLoop_fixed_point (ctx : Ctx) (fv : Tree → List String)
    (rules : List Rule) (mfuel : ℕ) (scope : Scope) :
    ∀ (fuel : ℕ) (t t2 : Tree),
      simplifyLoop ctx fv rules mfuel fuel scope t = .ok t2 →
      SimplifiedForm ctx fv rules mfuel scope t2 ∧
      ∀ f2, treeHeight t2 < f2 →
        simplifyLoop ctx fv rules mfuel f2 scope t2 = .ok t2 := by
  intro fuel
  induction fuel with
  | zero =>
      intro t t2 h
      exact nomatch (show (Except.error Err.outOfFuel : Except Err Tree)
        = Except.ok t2 from h)
  | succ g ih =>
      intro t t2 h
      cases hEvalB : isEvalNode t with
      | true =>
          simp only [simplifyLoop, hEvalB, if_true] at h
          cases hargs : t.argsD with
          | nil =>
              simp only [hargs] at h
              exact nomatch h
          | cons a0 rest =>
              simp only [hargs] at h
              cases hev : evalTree ctx mfuel scope a0 with
              | error e =>
                  simp only [hev] at h
                  exact nomatch h
              | ok v =>
                  simp only [hev] at h
                  exact ih _ _ h
      | false =>
          simp only [simplifyLoop, hEvalB, Bool.false_eq_true, if_false] at h
          cases t with
          | leaf tok =>
              simp only [exceptPure_bind] at h
              cases hfr : findRuleMatch ctx fv mfuel scope rules (.leaf tok) with
              | error e =>
                  rw [hfr] at h
                  exact nomatch (show (Except.error e : Except Err Tree)
                    = Except.ok t2 from h)
              | ok o =>
                  cases o with
                  | none =>
                      rw [hfr] at h
                      have h2 : (Except.ok (Tree.leaf tok) : Except Err Tree)
                          = Except.ok t2 := h
                      cases h2
                      refine ⟨⟨hfr, hEvalB⟩, ?_⟩
                      intro f2 hlt
                      cases f2 with
                      | zero => exact absurd hlt (by omega)
                      | succ k =>
                          simp only [simplifyLoop, hEvalB, Bool.false_eq_true,
                            if_false, exceptPure_bind]
                          rw [hfr]
                          rfl
                  | some rm =>
                      obtain ⟨r, m⟩ := rm
                      rw [hfr] at h
                      simp only [exceptBind_ok] at h
                      cases hsub : substituteTree (matchScope m) false r.result with
                      | error e =>
                          rw [hsub] at h
                          exact nomatch (show (Except.error e : Except Err Tree)
                            = Except.ok t2 from h)
                      | ok t3 =>
                          rw [hsub] at h
                          exact ih _ _ h
          | node tk args =>
              cases hmap : args.mapM (simplifyLoop ctx fv rules mfuel g scope) with
              | error e =>
                  simp only [hmap, exceptBind_err] at h
                  exact nomatch (show (Except.error e : Except Err Tree)
                    = Except.ok t2 from h)
              | ok args2 =>
                  simp only [hmap, exceptBind_ok, exceptPure_bind] at h
                  cases hfr : findRuleMatch ctx fv mfuel scope rules
                      (.node tk args2) with
                  | error e =>
                      rw [hfr] at h
                      exact nomatch (show (Except.error e : Except Err Tree)
                        = Except.ok t2 from h)
                  | ok o =>
                      cases o with
                      | none =>
                          rw [hfr] at h
                          have h2 : (Except.ok (Tree.node tk args2) : Except Err Tree)
                              = Except.ok t2 := h
                          cases h2
                          have hlist : ∀ (as bs : List Tree),
                              List.Forall₂ (fun a b =>
                                simplifyLoop ctx fv rules mfuel g scope a
                                  = .ok b) as bs →
                              SimplifiedList ctx fv rules mfuel scope bs ∧
                              ∀ c ∈ bs, ∀ f2, treeHeight c < f2 →
                                simplifyLoop ctx fv rules mfuel f2 scope c
                                  = .ok c := by
                            intro as bs hfa
                            induction hfa with
                            | nil =>
                                exact ⟨trivial, fun c hc =>
                                  absurd hc (List.not_mem_nil c)⟩
                            | cons ha htail ihh =>
                                obtain ⟨hSF, hfix⟩ := ih _ _ ha
                                obtain ⟨hsl, hfix2⟩ := ihh
                                refine ⟨⟨hSF, hsl⟩, ?_⟩
                                intro c hc
                                cases hc with
                                | head => exact hfix
                                | tail _ hc2 => exact hfix2 c hc2
                          have hch := hlist args args2 (mapM_ok_forall _ args args2 hmap)
                          have hEval2 : isEvalNode (Tree.node tk args2) = false :=
                            hEvalB
                          refine ⟨⟨hfr, hEval2, hch.1⟩, ?_⟩
                          intro f2 hlt
                          cases f2 with
                          | zero => exact absurd hlt (by omega)
                          | succ k =>
                              have hk : heightList args2 < k := by
                                have : treeHeight (Tree.node tk args2)
                                    = heightList args2 + 1 := rfl
                                omega
                              simp only [simplifyLoop, hEval2, Bool.false_eq_true,
                                if_false]
                              rw [mapM_self_ok _ args2 (fun c hc =>
                                hch.2 c hc k (lt_of_le_of_lt (treeHeight_mem hc) hk))]
                              simp only [exceptBind_ok, exceptPure_bind]
                              rw [hfr]
                              rfl
                      | some rm =>
                          obtain ⟨r, m⟩ := rm
                          rw [hfr] at h
                          simp only [exceptBind_ok] at h
                          cases hsub : substituteTree (matchScope m) false
                              r.result with
                          | error e =>
                              rw [hsub] at h
                              exact nomatch (show (Except.error e : Except Err Tree)
                                = Except.ok t2 from h)
                          | ok t3 =>
                              rw [hsub] at h
                              exact ih _ _ h

/-- C7.  When simplification of a tree with a ruleset and scope terminates
without error, the result is a fixed point: no rule of the ruleset matches
the returned tree or any of its subtrees (and no eval meta-node remains),
and applying simplifyTree again to the returned tree with the same ruleset,
scope and matcher depth returns it unchanged, for every loop budget beyond
the height of the returned tree. -/
theorem simplifyTree_idempotent (ctx : Ctx) (fv : Tree → List String)
    (rules : List Rule) (mfuel fuel : ℕ) (scope : Scope) (t t2 : Tree)
    (h : simplifyTree ctx fv rules mfuel fuel scope t = .ok t2) :
    SimplifiedForm ctx fv rules mfuel (scope.withVariables []) t2 ∧
    ∀ f2, treeHeight t2 < f2 →
      simplifyTree ctx fv rules mfuel f2 scope t2 = .ok t2 :=
  simplifyLoop_fixed_point ctx fv rules mfuel (scope.withVariables [])
    fuel t t2 h

/-- The rewrite rule replacing the name x by the number seven. -/
def c7Rule : Rule :=
  { tree := .leaf (Tok.name "x" [] false),
    conditions := [],
    result := .leaf (Tok.num (.real 7)) }

/-- C7 witness: the idempotence theorem applied to the concrete run that
rewrites the name x to the number seven; resimplifying the result returns
it unchanged. -/
theorem simplifyTree_idempotent_witness :
    simplifyTree cvCtx fvNone [c7Rule] 3 1 cvScope (.leaf (Tok.num (.real 7)))
      = .ok (.leaf (Tok.num (.real 7))) := by
  have h0 : simplifyTree cvCtx fvNone [c7Rule] 3 3 cvScope
      (.leaf (Tok.name "x" [] false)) = .ok (.leaf (Tok.num (.real 7))) := rfl
  exact (simplifyTree_idempotent cvCtx fvNone [c7Rule] 3 3 cvScope
    (.leaf (Tok.name "x" [] false)) (.leaf (Tok.num (.real 7))) h0).2 1
    (by decide)

/-! ## A store model of evaluation (claim C10)

Object identity and in-place mutation need an explicit heap: tree nodes
live at addresses of a store, and an argument array holds either addresses
of child nodes or, after the overwrite of line 1470, bare result tokens.
This models the same lines 1413 to 1515 as evalTree above, with allocation
made explicit so that writes to the caller's nodes become observable. -/

/-- An entry of a node's argument array: a child node reference, or the
bare token left by the result overwrite of line 1470. -/
inductive Cell where
| addr (a : ℕ)
| val (t : Tok)

/-- A tree node object: its token and, for applications, its argument
array. -/
structure HNode where
  tok : Tok
  args : Option (List Cell)

/-- The object store. -/
abbrev Store := List HNode

/-- Allocate a fresh node at the end of the store. -/
def alloc (s : Store) (n : HNode) : Store × ℕ := (s ++ [n], s.length)

/-- Overwrite one entry of the argument array of the node at an address. -/
def setArg (s : Store) (a i : ℕ) (c : Cell) : Store :=
  match s.get? a with
  | some n => s.set a { n with args := n.args.map (fun l => l.set i c) }
  | none => s

/-- Read the node at an address; a dangling address is the host fault of
reading a property of undefined. -/
def readNode (s : Store) (a : ℕ) : Except Err HNode :=
  match s.get? a with
  | some n => .ok n
  | none => .error (.jsError "tok of undefined")

/-- The collaborators of the store-model evaluator: the eager evaluation
procedures (which receive the evaluated token array and no tree, line 1496),
the lazy procedures (which receive the unevaluated argument array and may
extend the store), and contentsubvars. -/
structure HCtx where
  fnImpl : ℕ → List Tok → Except Err Tok
  lazyImpl : ℕ → List Cell → Store → Except Err (Store × Tok)
  csv : String → String

/-- The argument walk of the generic branch of substituteTree (lines 723 to
726): substitute each child of the copy at ca in place.  A bare token in an
argument slot has no tok property for the source to probe, a host fault. -/
def substArgsS (sub : Store → ℕ → Except Err (Store × ℕ)) (ca : ℕ) :
    Store → ℕ → List Cell → Except Err Store
| st, _, [] => .ok st
| st, i, c :: rest =>
  match c with
  | .val _ => .error (.jsError "bound of undefined")
  | .addr x => do
      let (st2, x2) ← sub st x
      substArgsS sub ca (setArg st2 ca i (.addr x2)) (i + 1) rest

/-- The argument walk of substituteTreeOps.let in the store model: only the
binding values, the arguments at odd positions before the final body, are
substituted into the copy. -/
def substLetS (sub : Store → ℕ → Except Err (Store × ℕ)) (ca n : ℕ) :
    Store → ℕ → List Cell → Except Err Store
| st, _, [] => .ok st
| st, i, c :: rest =>
  if i % 2 = 1 ∧ i < n - 1 then
    match c with
    | .val _ => .error (.jsError "bound of undefined")
    | .addr x => do
        let (st2, x2) ← sub st x
        substLetS sub ca n (setArg st2 ca i (.addr x2)) (i + 1) rest
  else substLetS sub ca n st (i + 1) rest

/-- jme.substituteTree in the store model (lines 680 to 727).  A leaf that
is not a name is returned as the same object (line 709); a name becomes a
fresh node holding the variable's token (the scope is assumed token valued:
the transient tree-valued scopes of the rewrite engine live in the value
model above); every compound node is copied with a sliced argument array
(lines 713 and 718) before its arguments are substituted in place, so the
original is never written. -/
def substituteTreeS (scope : Scope) (allowUnbound : Bool) :
    ℕ → Store → ℕ → Except Err (Store × ℕ)
| 0, _, _ => .error .outOfFuel
| fuel + 1, store, a => do
  let n ← readNode store a
  match n.args with
  | none =>
    match n.tok with
    | .name nm _ _ =>
      match scope.getVariable (strLower nm) with
      | none =>
        if allowUnbound then .ok (alloc store ⟨Tok.name (strLower nm) [] false, none⟩)
        else .error (.substituteTreeUndefinedVariable (strLower nm))
      | some (.tok v) => .ok (alloc store ⟨v, none⟩)
      | some (.tree _) =>
        .error (.jsError "tree-valued variable beyond the token-valued model")
    | _ => .ok (store, a)
  | some cells =>
    if (n.tok.type == "function" || n.tok.type == "op")
        && substOps.contains n.tok.nameStr then
      let (store1, ca) := alloc store ⟨n.tok, some cells⟩
      if n.tok.nameStr == "map" || n.tok.nameStr == "filter" then
        match cells with
        | _ :: _ :: c2 :: _ =>
          match c2 with
          | .addr x => do
              let (st2, x2) ← substituteTreeS scope allowUnbound fuel store1 x
              .ok (setArg st2 ca 2 (.addr x2), ca)
          | .val _ => .error (.jsError "bound of undefined")
        | _ => .ok (store1, ca)
      else if n.tok.nameStr == "let" then do
        let st2 ← substLetS (substituteTreeS scope allowUnbound fuel) ca
          cells.length store1 0 cells
        .ok (st2, ca)
      else .ok (store1, ca)
    else
      let (store1, ca) := alloc store ⟨n.tok, some cells⟩
      do
        let st2 ← substArgsS (substituteTreeS scope allowUnbound fuel) ca
          store1 0 cells
        .ok (st2, ca)

/-- The overwrite loop of the eager branch (lines 1468 to 1472): each
argument is evaluated and the result token is written back over the
argument entry of the node at a. -/
def evalArgsS (ev : Store → ℕ → Except Err (Store × Tok)) (a : ℕ) :
    Store → ℕ → List Cell → Except Err (Store × List Tok)
| st, _, [] => .ok (st, [])
| st, i, c :: rest =>
  match c with
  | .val _ => .error (.jsError "bound of undefined")
  | .addr x => do
      let (st2, t) ← ev st x
      let (st3, ts) ← evalArgsS ev a (setArg st2 a i (.val t)) (i + 1) rest
      .ok (st3, t :: ts)

/-- The element walk of the list branch (lines 1424 to 1430): evaluate each
entry, writing nothing back. -/
def evalCellsS (ev : Store → ℕ → Except Err (Store × Tok)) :
    Store → List Cell → Except Err (Store × List Tok)
| st, [] => .ok (st, [])
| st, c :: rest =>
  match c with
  | .val _ => .error (.jsError "bound of undefined")
  | .addr x => do
      let (st2, t) ← ev st x
      let (st3, ts) ← evalCellsS ev st2 rest
      .ok (st3, t :: ts)

/-- The entry walk of the dictionary branch: each entry is a keypair node
whose first argument is evaluated. -/
def evalDictS (ev : Store → ℕ → Except Err (Store × Tok)) :
    Store → List Cell → Except Err (Store × List (String × Tok))
| st, [] => .ok (st, [])
| st, c :: rest =>
  match c with
  | .val _ => .error (.jsError "malformed dictionary entry")
  | .addr x => do
      let n ← readNode st x
      match n.tok, n.args with
      | .keypair k, some (c0 :: _) =>
        match c0 with
        | .addr x0 => do
            let (st2, v) ← ev st x0
            let (st3, ps) ← evalDictS ev st2 rest
            .ok (st3, (k, v) :: ps)
        | .val _ => .error (.jsError "bound of undefined")
      | _, _ => .error (.jsError "malformed dictionary entry")

/-- The dispatch tail of the eager branch in the store model: as
eagerDispatch, with the evaluation procedure receiving the token array. -/
def hDispatch (hctx : HCtx) (scope : Scope) (tokType op : String)
    (argToks : List Tok) (store : Store) : Except Err (Store × Tok) :=
  let fns := scope.getFunction op
  if fns.isEmpty then
    if tokType == "function" then
      if op.length > 1 && !(scope.getFunction (op.drop 1)).isEmpty then
        .error (.functionMaybeImplicitMultiplication op (op.take 1) (op.drop 1))
      else .error (.functionNotDefined op)
    else .error (.opNotDefined op)
  else
    match fns.find? (fun fn => fn.typecheck argToks) with
    | some fn =>
      match hctx.fnImpl fn.evalKey argToks with
      | .ok t => .ok (store, t)
      | .error e => .error e
    | none =>
      match argToks.find? Tok.isUnboundName with
      | some t => .error (.noRightTypeUnboundName t.unboundNameStr)
      | none => .error (.noRightTypeDefinition op)

/-- Scope.prototype.evaluate in the store model (lines 1413 to 1515): the
tree at the given address is substituted - copying every compound node -
and the switch runs on the substituted node; the eager operator and
function branch evaluates the arguments left to right, overwriting the
argument entries of the substituted copy with the result tokens, and then
dispatches on the evaluated tokens. -/
def evalTreeS (hctx : HCtx) (scope : Scope) : ℕ → Store → ℕ →
    Except Err (Store × Tok)
| 0, _, _ => .error .outOfFuel
| fuel + 1, store0, a0 => do
  let (store, a) ← substituteTreeS scope true (fuel + 1) store0 a0
  let n ← readNode store a
  let evalOp : String → String → Except Err (Store × Tok) := fun tokType op =>
    if lazyOps.contains op then
      match scope.getFunction op with
      | [] => .error (.jsError "evaluate of undefined")
      | fn :: _ => hctx.lazyImpl fn.evalKey (n.args.getD []) store
    else
      match n.args with
      | none => .error (.jsError "length of undefined")
      | some cells => do
          let (st2, argToks) ← evalArgsS (evalTreeS hctx scope fuel) a store
            0 cells
          hDispatch hctx scope tokType op argToks st2
  match n.tok with
  | .num v => .ok (store, .num v)
  | .bool b => .ok (store, .bool b)
  | .range x y z => .ok (store, .range x y z)
  | .list vars value =>
    match value with
    | some _ => .ok (store, .list vars value)
    | none =>
      match n.args with
      | none => .error (.jsError "length of undefined")
      | some cells => do
          let (st2, vals) ← evalCellsS (evalTreeS hctx scope fuel) store cells
          .ok (st2, .list vals.length (some vals))
  | .dict value =>
    match value with
    | some _ => .ok (store, .dict value)
    | none =>
      match n.args with
      | none => .error (.jsError "length of undefined")
      | some cells => do
          let (st2, pairs) ← evalDictS (evalTreeS hctx scope fuel) store cells
          .ok (st2, .dict (some (pairs.foldl (fun m p => jsSet m p.1 p.2) [])))
  | .str v safe latex =>
    if !safe && v.contains braceL then .ok (store, .str (hctx.csv v) false latex)
    else .ok (store, .str v safe latex)
  | .name nm _ _ =>
    match scope.getVariable (strLower nm) with
    | some (.tok v) => .ok (store, v)
    | some (.tree _) =>
      .error (.jsError "tree-valued variable beyond the token-valued model")
    | none => .ok (store, .name nm [] true)
  | .op nm _ _ => evalOp "op" (strLower nm)
  | .func nm _ => evalOp "function" (strLower nm)
  | .keypair k => .ok (store, .keypair k)
  | .punc k => .ok (store, .punc k)

/-- All addresses below L read the same node in both stores, and the store
only grows. -/
def PreservedAt (L : ℕ) (s s2 : Store) : Prop :=
  s.length ≤ s2.length ∧ ∀ j, j < L → s2.get? j = s.get? j

/-- No pre-existing node is written: everything visible through an address
of the first store is unchanged in the second. -/
def StorePreserved (s s2 : Store) : Prop := PreservedAt s.length s s2

theorem preservedAt_refl (L : ℕ) (s : Store) : PreservedAt L s s :=
  ⟨le_refl _, fun _ _ => rfl⟩

theorem preservedAt_trans {L : ℕ} {s s1 s2 : Store} (h1 : PreservedAt L s s1)
    (h2 : PreservedAt L s1 s2) : PreservedAt L s s2 :=
  ⟨le_trans h1.1 h2.1, fun j hj => (h2.2 j hj).trans (h1.2 j hj)⟩

theorem preservedAt_mono {L M : ℕ} {s s2 : Store} (hLM : L ≤ M)
    (h : PreservedAt M s s2) : PreservedAt L s s2 :=
  ⟨h.1, fun j hj => h.2 j (lt_of_lt_of_le hj hLM)⟩

theorem preservedAt_alloc (L : ℕ) (s : Store) (n : HNode) (hL : L ≤ s.length) :
    PreservedAt L s (s ++ [n]) :=
  ⟨by simp, fun j hj => List.get?_append (lt_of_lt_of_le hj hL)⟩

theorem setArg_length (s : Store) (a i : ℕ) (c : Cell) :
    (setArg s a i c).length = s.length := by
  unfold setArg
  cases h : s.get? a with
  | none => rfl
  | some n => simp

theorem preservedAt_setArg (L : ℕ) (s : Store) (a i : ℕ) (c : Cell)
    (hL : L ≤ a) : PreservedAt L s (setArg s a i c) := by
  refine ⟨le_of_eq (setArg_length s a i c).symm, fun j hj => ?_⟩
  unfold setArg
  cases h : s.get? a with
  | none => rfl
  | some n => exact List.get?_set_ne _ _ (by omega)

theorem substArgsS_preserves (sub : Store → ℕ → Except Err (Store × ℕ))
    (hsub : ∀ st x st2 r, sub st x = .ok (st2, r) → StorePreserved st st2)
    (ca L : ℕ) (hca : L ≤ ca) :
    ∀ cells st i st2, L ≤ st.length →
      substArgsS sub ca st i cells = .ok st2 → PreservedAt L st st2 := by
  intro cells
  induction cells with
  | nil =>
      intro st i st2 _ h
      simp only [substArgsS] at h
      cases h
      exact preservedAt_refl _ _
  | cons c rest ih =>
      intro st i st2 hlen h
      cases c with
      | val t => simp only [substArgsS] at h; exact nomatch h
      | addr x =>
          simp only [substArgsS] at h
          cases hs : sub st x with
          | error e => simp only [hs, exceptBind_err] at h; exact nomatch h
          | ok p =>
              obtain ⟨st1, x2⟩ := p
              simp only [hs, exceptBind_ok] at h
              have h1 : PreservedAt L st st1 :=
                preservedAt_mono hlen (hsub st x st1 x2 hs)
              have h2 : PreservedAt L st1 (setArg st1 ca i (.addr x2)) :=
                preservedAt_setArg L st1 ca i (.addr x2) hca
              have hlen2 : L ≤ (setArg st1 ca i (.addr x2)).length := by
                rw [setArg_length]; exact le_trans hlen h1.1
              exact preservedAt_trans (preservedAt_trans h1 h2)
                (ih (setArg st1 ca i (.addr x2)) (i + 1) st2 hlen2 h)

theorem substLetS_preserves (sub : Store → ℕ → Except Err (Store × ℕ))
    (hsub : ∀ st x st2 r, sub st x = .ok (st2, r) → StorePreserved st st2)
    (ca n L : ℕ) (hca : L ≤ ca) :
    ∀ cells st i st2, L ≤ st.length →
      substLetS sub ca n st i cells = .ok st2 → PreservedAt L st st2 := by
  intro cells
  induction cells with
  | nil =>
      intro st i st2 _ h
      simp only [substLetS] at h
      cases h
      exact preservedAt_refl _ _
  | cons c rest ih =>
      intro st i st2 hlen h
      simp only [substLetS] at h
      by_cases hc : i % 2 = 1 ∧ i < n - 1
      · rw [if_pos hc] at h
        cases c with
        | val t => exact nomatch h
        | addr x =>
            cases hs : sub st x with
            | error e => simp only [hs, exceptBind_err] at h; exact nomatch h
            | ok p =>
                obtain ⟨st1, x2⟩ := p
                simp only [hs, exceptBind_ok] at h
                have h1 : PreservedAt L st st1 :=
                  preservedAt_mono hlen (hsub st x st1 x2 hs)
                have h2 : PreservedAt L st1 (setArg st1 ca i (.addr x2)) :=
                  preservedAt_setArg L st1 ca i (.addr x2) hca
                have hlen2 : L ≤ (setArg st1 ca i (.addr x2)).length := by
                  rw [setArg_length]; exact le_trans hlen h1.1
                exact preservedAt_trans (preservedAt_trans h1 h2)
                  (ih (setArg st1 ca i (.addr x2)) (i + 1) st2 hlen2 h)
      · rw [if_neg hc] at h
        exact ih st (i + 1) st2 hlen h

theorem evalArgsS_preserves (ev : Store → ℕ → Except Err (Store × Tok))
    (hev : ∀ st x st2 t, ev st x = .ok (st2, t) → StorePreserved st st2)
    (a L : ℕ) (ha : L ≤ a) :
    ∀ cells st i st2 ts, L ≤ st.length →
      evalArgsS ev a st i cells = .ok (st2, ts) → PreservedAt L st st2 := by
  intro cells
  induction cells with
  | nil =>
      intro st i st2 ts _ h
      simp only [evalArgsS] at h
      cases h
      exact preservedAt_refl _ _
  | cons c rest ih =>
      intro st i st2 ts hlen h
      cases c with
      | val t => simp only [evalArgsS] at h; exact nomatch h
      | addr x =>
          simp only [evalArgsS] at h
          cases hs : ev st x with
          | error e => simp only [hs, exceptBind_err] at h; exact nomatch h
          | ok p =>
              obtain ⟨st1, t⟩ := p
              simp only [hs, exceptBind_ok] at h
              cases hr : evalArgsS ev a (setArg st1 a i (.val t)) (i + 1) rest with
              | error e => simp only [hr, exceptBind_err] at h; exact nomatch h
              | ok q =>
                  obtain ⟨st3, ts3⟩ := q
                  simp only [hr, exceptBind_ok] at h
                  cases h
                  have h1 : PreservedAt L st st1 :=
                    preservedAt_mono hlen (hev st x st1 t hs)
                  have h2 : PreservedAt L st1 (setArg st1 a i (.val t)) :=
                    preservedAt_setArg L st1 a i (.val t) ha
                  have hlen2 : L ≤ (setArg st1 a i (.val t)).length := by
                    rw [setArg_length]; exact le_trans hlen h1.1
                  exact preservedAt_trans (preservedAt_trans h1 h2)
                    (ih (setArg st1 a i (.val t)) (i + 1) st2 ts3 hlen2 hr)

theorem evalCellsS_preserves (ev : Store → ℕ → Except Err (Store × Tok))
    (hev : ∀ st x st2 t, ev st x = .ok (st2, t) → StorePreserved st st2)
    (L : ℕ) :
    ∀ cells st st2 ts, L ≤ st.length →
      evalCellsS ev st cells = .ok (st2, ts) → PreservedAt L st st2 := by
  intro cells
  induction cells with
  | nil =>
      intro st st2 ts _ h
      simp only [evalCellsS] at h
      cases h
      exact preservedAt_refl _ _
  | cons c rest ih =>
      intro st st2 ts hlen h
      cases c with
      | val t => simp only [evalCellsS] at h; exact nomatch h
      | addr x =>
          simp only [evalCellsS] at h
          cases hs : ev st x with
          | error e => simp only [hs, exceptBind_err] at h; exact nomatch h
          | ok p =>
              obtain ⟨st1, t⟩ := p
              simp only [hs, exceptBind_ok] at h
              cases hr : evalCellsS ev st1 rest with
              | error e => simp only [hr, exceptBind_err] at h; exact nomatch h
              | ok q =>
                  obtain ⟨st3, ts3⟩ := q
                  simp only [hr, exceptBind_ok] at h
                  cases h
                  have h1 : PreservedAt L st st1 :=
                    preservedAt_mono hlen (hev st x st1 t hs)
                  exact preservedAt_trans h1
                    (ih st1 st2 ts3 (le_trans hlen h1.1) hr)

theorem evalDictS_preserves (ev : Store → ℕ → Except Err (Store × Tok))
    (hev : ∀ st x st2 t, ev st x = .ok (st2, t) → StorePreserved st st2)
    (L : ℕ) :
    ∀ cells st st2 ps, L ≤ st.length →
      evalDictS ev st cells = .ok (st2, ps) → PreservedAt L st st2 := by
  intro cells
  induction cells with
  | nil =>
      intro st st2 ps _ h
      simp only [evalDictS] at h
      cases h
      exact preservedAt_refl _ _
  | cons c rest ih =>
      intro st st2 ps hlen h
      cases c with
      | val t => simp only [evalDictS] at h; exact nomatch h
      | addr x =>
          simp only [evalDictS] at h
          cases hn : readNode st x with
          | error e => simp only [hn, exceptBind_err] at h; exact nomatch h
          | ok n =>
              simp only [hn, exceptBind_ok] at h
              split at h
              · rename_i k c0 tl htok hargs
                cases c0 with
                | val t0 => exact nomatch h
                | addr x0 =>
                    cases hs : ev st x0 with
                    | error e =>
                        simp only [hs, exceptBind_err] at h; exact nomatch h
                    | ok p =>
                        obtain ⟨st1, v⟩ := p
                        simp only [hs, exceptBind_ok] at h
                        cases hr : evalDictS ev st1 rest with
                        | error e =>
                            simp only [hr, exceptBind_err] at h
                            exact nomatch h
                        | ok q =>
                            obtain ⟨st3, ps3⟩ := q
                            simp only [hr, exceptBind_ok] at h
                            cases h
                            have h1 : PreservedAt L st st1 :=
                              preservedAt_mono hlen (hev st x0 st1 v hs)
                            exact preservedAt_trans h1
                              (ih st1 st2 ps3 (le_trans hlen h1.1) hr)
              · exact nomatch h

/-- Substitution never writes a pre-existing node: it returns either the
same address - and then only when the node there is a leaf - or a freshly
allocated copy, all in-place argument writes landing on fresh copies
(lines 713 and 718: every compound node is rebuilt from a sliced argument
array before its arguments are replaced). -/
theorem substituteTreeS_preserves (scope : Scope) (allowUnbound : Bool) :
    ∀ fuel st a st2 r,
      substituteTreeS scope allowUnbound fuel st a = .ok (st2, r) →
      StorePreserved st st2 ∧
        (r < st.length → ∃ nn, st.get? r = some nn ∧ nn.args = none) := by
  intro fuel
  induction fuel with
  | zero =>
      intro st a st2 r h
      simp only [substituteTreeS] at h
      exact nomatch h
  | succ fuel ih =>
      intro st a st2 r h
      have hsub : ∀ s x s2 r2,
          substituteTreeS scope allowUnbound fuel s x = .ok (s2, r2) →
          StorePreserved s s2 := fun s x s2 r2 hh => (ih s x s2 r2 hh).1
      simp only [substituteTreeS, readNode] at h
      cases hn : st.get? a with
      | none => simp only [hn, exceptBind_err] at h; exact nomatch h
      | some n =>
          simp only [hn, exceptBind_ok] at h
          cases hargs : n.args with
          | none =>
              simp only [hargs] at h
              cases htok : n.tok <;> simp only [htok] at h <;>
                first
                | (cases h; exact ⟨preservedAt_refl _ _,
                    fun _ => ⟨n, hn, hargs⟩⟩)
                | skip
              rename_i nm ann ub
              cases hv : Scope.getVariable scope (strLower nm) with
              | none =>
                  simp only [hv] at h
                  cases allowUnbound with
                  | false =>
                      rw [if_neg Bool.false_ne_true] at h
                      exact nomatch h
                  | true =>
                      rw [if_pos rfl] at h
                      simp only [alloc] at h
                      cases h
                      exact ⟨preservedAt_alloc _ _ _ (le_refl _),
                        fun hr => absurd hr (lt_irrefl _)⟩
              | some vv =>
                  cases vv with
                  | tok v =>
                      simp only [hv] at h
                      simp only [alloc] at h
                      cases h
                      exact ⟨preservedAt_alloc _ _ _ (le_refl _),
                        fun hr => absurd hr (lt_irrefl _)⟩
                  | tree t =>
                      simp only [hv] at h
                      exact nomatch h
          | some cells =>
              simp only [hargs, alloc] at h
              have hlen1 : st.length ≤ (st ++ [(⟨n.tok, some cells⟩ : HNode)]).length := by
                simp
              by_cases hc : ((n.tok.type == "function" || n.tok.type == "op")
                  && substOps.contains n.tok.nameStr) = true
              · rw [if_pos hc] at h
                by_cases hmf : (n.tok.nameStr == "map"
                    || n.tok.nameStr == "filter") = true
                · rw [if_pos hmf] at h
                  rcases cells with _ | ⟨c0, _ | ⟨c1, _ | ⟨c2, tl⟩⟩⟩
                  · cases h
                    exact ⟨preservedAt_alloc _ _ _ (le_refl _),
                      fun hr => absurd hr (lt_irrefl _)⟩
                  · cases h
                    exact ⟨preservedAt_alloc _ _ _ (le_refl _),
                      fun hr => absurd hr (lt_irrefl _)⟩
                  · cases h
                    exact ⟨preservedAt_alloc _ _ _ (le_refl _),
                      fun hr => absurd hr (lt_irrefl _)⟩
                  · cases c2 with
                    | val t => exact nomatch h
                    | addr x =>
                        cases hs : substituteTreeS scope allowUnbound fuel
                            (st ++ [⟨n.tok, some (c0 :: c1 :: Cell.addr x :: tl)⟩]) x with
                        | error e =>
                            simp only [hs, exceptBind_err] at h
                            exact nomatch h
                        | ok p =>
                            obtain ⟨stR, x2⟩ := p
                            simp only [hs, exceptBind_ok] at h
                            cases h
                            refine ⟨?_, fun hr => absurd hr (lt_irrefl _)⟩
                            have h1 : PreservedAt st.length st
                                (st ++ [⟨n.tok, some (c0 :: c1 :: Cell.addr x :: tl)⟩]) :=
                              preservedAt_alloc _ _ _ (le_refl _)
                            have h2 : PreservedAt st.length
                                (st ++ [⟨n.tok, some (c0 :: c1 :: Cell.addr x :: tl)⟩]) stR :=
                              preservedAt_mono hlen1 (hsub _ _ _ _ hs)
                            have h3 : PreservedAt st.length stR
                                (setArg stR st.length 2 (.addr x2)) :=
                              preservedAt_setArg _ _ _ _ _ (le_refl _)
                            exact preservedAt_trans (preservedAt_trans h1 h2) h3
                · rw [if_neg hmf] at h
                  by_cases hlet : (n.tok.nameStr == "let") = true
                  · rw [if_pos hlet] at h
                    cases hs : substLetS (substituteTreeS scope allowUnbound fuel)
                        st.length cells.length
                        (st ++ [⟨n.tok, some cells⟩]) 0 cells with
                    | error e =>
                        simp only [hs, exceptBind_err] at h
                        exact nomatch h
                    | ok stR =>
                        simp only [hs, exceptBind_ok] at h
                        cases h
                        refine ⟨?_, fun hr => absurd hr (lt_irrefl _)⟩
                        have h1 : PreservedAt st.length st
                            (st ++ [(⟨n.tok, some cells⟩ : HNode)]) :=
                          preservedAt_alloc _ _ _ (le_refl _)
                        have h2 : PreservedAt st.length
                            (st ++ [(⟨n.tok, some cells⟩ : HNode)]) st2 :=
                          substLetS_preserves _ hsub _ _ _ (le_refl _)
                            cells _ 0 st2 hlen1 hs
                        exact preservedAt_trans h1 h2
                  · rw [if_neg hlet] at h
                    cases h
                    exact ⟨preservedAt_alloc _ _ _ (le_refl _),
                      fun hr => absurd hr (lt_irrefl _)⟩
              · rw [if_neg hc] at h
                cases hs : substArgsS (substituteTreeS scope allowUnbound fuel)
                    st.length (st ++ [⟨n.tok, some cells⟩]) 0 cells with
                | error e =>
                    simp only [hs, exceptBind_err] at h
                    exact nomatch h
                | ok stR =>
                    simp only [hs, exceptBind_ok] at h
                    cases h
                    refine ⟨?_, fun hr => absurd hr (lt_irrefl _)⟩
                    have h1 : PreservedAt st.length st
                        (st ++ [(⟨n.tok, some cells⟩ : HNode)]) :=
                      preservedAt_alloc _ _ _ (le_refl _)
                    have h2 : PreservedAt st.length
                        (st ++ [(⟨n.tok, some cells⟩ : HNode)]) st2 :=
                      substArgsS_preserves _ hsub _ _ (le_refl _)
                        cells _ 0 st2 hlen1 hs
                    exact preservedAt_trans h1 h2

/-- The eager dispatch tail runs on the evaluated tokens only and returns
the store it was given. -/
theorem hDispatch_store (hctx : HCtx) (scope : Scope) (tokType op : String)
    (argToks : List Tok) (store st2 : Store) (t : Tok)
    (h : hDispatch hctx scope tokType op argToks store = .ok (st2, t)) :
    st2 = store := by
  simp only [hDispatch] at h
  split at h
  · split at h
    · split at h <;> exact nomatch h
    · exact nomatch h
  · split at h
    · split at h
      · cases h; rfl
      · exact nomatch h
    · split at h <;> exact nomatch h

/-- C10: contrary to the claim, evaluating an operator or function node
does NOT mutate the caller's tree.  Scope.prototype.evaluate first passes
the tree through jme.substituteTree (line 1413), which rebuilds every
compound node as a fresh object with a sliced argument array (lines 713
and 718; the bound shortcut of line 684 is dead, as nothing ever sets
tok.bound), and the in-place overwrites of lines 1468 to 1472 land on that
fresh copy.  Formally: whenever store-model evaluation succeeds - and the
scope is token valued and the lazy evaluation procedures themselves only
extend the store, as the builtin ones do, reaching trees only through
jme.evaluate and jme.substituteTree - every node present in the store
before evaluation is unchanged after it, so the original argument subtrees
remain reachable through the caller's tree and another live reference to
it still denotes the original expression. -/
theorem evalTreeS_frame (hctx : HCtx) (scope : Scope)
    (hlazy : ∀ k cells st st2 t,
      hctx.lazyImpl k cells st = .ok (st2, t) → StorePreserved st st2) :
    ∀ fuel st a st2 tok, evalTreeS hctx scope fuel st a = .ok (st2, tok) →
      StorePreserved st st2 := by
  intro fuel
  induction fuel with
  | zero =>
      intro st a st2 tok h
      simp only [evalTreeS] at h
      exact nomatch h
  | succ fuel ih =>
      intro st a st2 tok h
      have hev : ∀ s x s2 t, evalTreeS hctx scope fuel s x = .ok (s2, t) →
          StorePreserved s s2 := fun s x s2 t hh => ih s x s2 t hh
      simp only [evalTreeS] at h
      cases hsb : substituteTreeS scope true (fuel + 1) st a with
      | error e => simp only [hsb, exceptBind_err] at h; exact nomatch h
      | ok p =>
          obtain ⟨store, a2⟩ := p
          simp only [hsb, exceptBind_ok] at h
          obtain ⟨hpres1, hfresh⟩ :=
            substituteTreeS_preserves scope true (fuel + 1) st a store a2 hsb
          have hL : st.length ≤ store.length := hpres1.1
          simp only [readNode] at h
          cases hn : store.get? a2 with
          | none => simp only [hn, exceptBind_err] at h; exact nomatch h
          | some n =>
              simp only [hn, exceptBind_ok] at h
              have hop : ∀ tokType nm,
                  (if lazyOps.contains nm = true then
                      match scope.getFunction nm with
                      | [] => Except.error (Err.jsError "evaluate of undefined")
                      | fn :: _ => hctx.lazyImpl fn.evalKey (n.args.getD []) store
                    else
                      match n.args with
                      | none => Except.error (Err.jsError "length of undefined")
                      | some cells => do
                          let (st3, argToks) ←
                            evalArgsS (evalTreeS hctx scope fuel) a2 store
                              0 cells
                          hDispatch hctx scope tokType nm argToks st3)
                    = Except.ok (st2, tok) → StorePreserved st st2 := by
                intro tokType nm hh
                by_cases hlz : lazyOps.contains nm = true
                · rw [if_pos hlz] at hh
                  cases hfn : scope.getFunction nm with
                  | nil => simp only [hfn] at hh; exact nomatch hh
                  | cons fn rest =>
                      simp only [hfn] at hh
                      exact preservedAt_trans hpres1
                        (preservedAt_mono hL (hlazy _ _ _ _ _ hh))
                · rw [if_neg hlz] at hh
                  cases hargs : n.args with
                  | none => simp only [hargs] at hh; exact nomatch hh
                  | some cells =>
                      simp only [hargs] at hh
                      have ha2 : st.length ≤ a2 := by
                        by_contra hlt
                        push_neg at hlt
                        obtain ⟨nn, hnn, hnone⟩ := hfresh hlt
                        have he := hpres1.2 a2 hlt
                        rw [hn, hnn] at he
                        cases he
                        rw [hnone] at hargs
                        exact nomatch hargs
                      cases hea : evalArgsS (evalTreeS hctx scope fuel) a2
                          store 0 cells with
                      | error e =>
                          simp only [hea, exceptBind_err] at hh
                          exact nomatch hh
                      | ok q =>
                          obtain ⟨stE, argToks⟩ := q
                          simp only [hea, exceptBind_ok] at hh
                          have hd := hDispatch_store hctx scope tokType nm
                            argToks stE st2 tok hh
                          subst hd
                          exact preservedAt_trans hpres1
                            (evalArgsS_preserves _ hev a2 st.length ha2
                              cells store 0 st2 argToks hL hea)
              cases htok : n.tok <;> simp only [htok] at h
              case num v => cases h; exact hpres1
              case bool b => cases h; exact hpres1
              case range x y z => cases h; exact hpres1
              case keypair k => cases h; exact hpres1
              case punc k => cases h; exact hpres1
              case str v safe latex => split at h <;> (cases h; exact hpres1)
              case name nm ann ub =>
                cases hv : Scope.getVariable scope (strLower nm) with
                | none => simp only [hv] at h; cases h; exact hpres1
                | some vv =>
                    cases vv with
                    | tok v => simp only [hv] at h; cases h; exact hpres1
                    | tree t => simp only [hv] at h; exact nomatch h
              case list vars value =>
                cases value with
                | some l => cases h; exact hpres1
                | none =>
                    cases hargs : n.args with
                    | none => simp only [hargs] at h; exact nomatch h
                    | some cells =>
                        simp only [hargs] at h
                        cases hcl : evalCellsS (evalTreeS hctx scope fuel)
                            store cells with
                        | error e =>
                            simp only [hcl, exceptBind_err] at h
                            exact nomatch h
                        | ok q =>
                            obtain ⟨stE, vals⟩ := q
                            simp only [hcl, exceptBind_ok] at h
                            cases h
                            exact preservedAt_trans hpres1
                              (evalCellsS_preserves _ hev st.length cells
                                store st2 vals hL hcl)
              case dict value =>
                cases value with
                | some l => cases h; exact hpres1
                | none =>
                    cases hargs : n.args with
                    | none => simp only [hargs] at h; exact nomatch h
                    | some cells =>
                        simp only [hargs] at h
                        cases hcl : evalDictS (evalTreeS hctx scope fuel)
                            store cells with
                        | error e =>
                            simp only [hcl, exceptBind_err] at h
                            exact nomatch h
                        | ok q =>
                            obtain ⟨stE, pairs⟩ := q
                            simp only [hcl, exceptBind_ok] at h
                            cases h
                            exact preservedAt_trans hpres1
                              (evalDictS_preserves _ hev st.length cells
                                store st2 pairs hL hcl)
              case op nm post pre => exact hop "op" (strLower nm) h
              case func nm ann => exact hop "function" (strLower nm) h

/-- An eagerly evaluated binary operator definition. -/
def c10Fn : FuncObj :=
  { id := 0, fname := "+", typecheck := fun _ => true, evalKey := 0 }

/-- A scope defining the plus operator. -/
def c10Scope : Scope := Scope.mk [] [("+", [c10Fn])] [] none

/-- Collaborators for the store model: a constant eager procedure (its
value is irrelevant to the frame question) and unused lazy procedures. -/
def c10Ctx : HCtx :=
  { fnImpl := fun _ _ => .ok (Tok.bool true),
    lazyImpl := fun _ _ _ => .error (.jsError "unused"),
    csv := fun s => s }

/-- The caller's tree for one plus two: two number leaves at addresses zero
and one, and the operator node at address two holding references to them. -/
def c10Store : Store :=
  [⟨Tok.num (.real 1), none⟩, ⟨Tok.num (.real 2), none⟩,
   ⟨Tok.op "+" false false, some [.addr 0, .addr 1]⟩]

/-- C10 counterexample: evaluating the eager plus node at address two
succeeds, yet afterwards the caller's node at address two still holds its
original argument references - the original subtrees remain reachable
through it and it still denotes one plus two - while the argument
overwrite of line 1470 shows up only on the fresh substituted copy at
address three, whose slots now hold the evaluated result tokens.  This
refutes the claimed in-place mutation of the caller's tree. -/
theorem evalTreeS_caller_tree_counterexample :
    (evalTreeS c10Ctx c10Scope 3 c10Store 2).map
        (fun p => (p.1.get? 2, p.1.get? 3, p.2))
      = .ok (some ⟨Tok.op "+" false false, some [Cell.addr 0, Cell.addr 1]⟩,
             some ⟨Tok.op "+" false false,
               some [Cell.val (Tok.num (.real 1)),
                     Cell.val (Tok.num (.real 2))]⟩,
             Tok.bool true) := rfl

/-- C10 witness: the frame theorem applied to the concrete run on the plus
tree, whose result store is the original store extended with the mutated
fresh copy; the lazy-procedure hypothesis holds vacuously since these
collaborators never succeed. -/
theorem evalTreeS_frame_witness :
    evalTreeS c10Ctx c10Scope 3 c10Store 2 =
        .ok (c10Store ++ [⟨Tok.op "+" false false,
          some [Cell.val (Tok.num (.real 1)),
                Cell.val (Tok.num (.real 2))]⟩], Tok.bool true) ∧
      StorePreserved c10Store (c10Store ++ [⟨Tok.op "+" false false,
        some [Cell.val (Tok.num (.real 1)),
              Cell.val (Tok.num (.real 2))]⟩]) :=
  ⟨rfl, evalTreeS_frame c10Ctx c10Scope
    (fun _ _ _ _ _ hh => nomatch hh) 3 c10Store 2 _ _ rfl⟩

end Numbas
